import Mathlib

/-!
# Data assimilation driver (`src/src/assim_cli.c`, function `main`)

A shallow embedding of the parts of `main` that aggregate the background state,
mark the links needed for fitting, fill the weight vectors and run the
least-squares refinement cycle.

Modelling conventions.

* A C array of `double` is a total map `Nat → ℚ` from index to value (`Buf`); a
  write is `Function.update`.  Values are exact rationals: apart from the error
  measure `ComputeDiff`, the code modelled here only adds zeros, compares and
  copies, so rounding plays no part in it.
* `unsigned int` index arithmetic is done in `Nat`; the source agrees with it as
  long as `assim_dim * N` and `num_steps * num_obs` fit in 32 bits, which the
  allocations of the buffers presuppose.
* Routines whose bodies live in other files (`SolveSysLS`,
  `ReduceBadDischargeValues`) are parameters ranging over all functions on the
  memory they can reach.
-/

namespace Assim

/-- A C array of doubles: index to value. -/
abbrev Buf := Nat → ℚ

/-- A C array of `bool`. -/
abbrev Flags := Nat → Bool

/-- Result of `calloc`: every entry is zero. -/
def calloc : Buf := fun _ => 0

/-- The constant `assim_dim = 4` of `main`. -/
def assim_dim : Nat := 4

/-! ## Distributed aggregation of the background state (lines 412-427) -/

/-- Inner loop `for (j = 0; j < assim_dim; j++) x_b[i*assim_dim + j] = y_approx[j]`
for node `i`, where `y i j` is `sys[i].my->list.tail->y_approx[j]` on this rank. -/
def fillNode (y : Nat → Nat → ℚ) (x_b : Buf) (i : Nat) : Buf :=
  (List.range assim_dim).foldl
    (fun b j => Function.update b (i * assim_dim + j) (y i j)) x_b

/-- Loop `for (i = 0; i < N; i++) if (assignments[i] == my_rank) ...` over the
zero-initialised buffer `x_b`, as executed on rank `my_rank`. -/
def fillBackground (N : Nat) (assignments : Nat → Nat) (my_rank : Nat)
    (y : Nat → Nat → ℚ) : Buf :=
  (List.range N).foldl
    (fun b i => if assignments i = my_rank then fillNode y b i else b) calloc

/-- The collective `MPI_Allreduce(MPI_IN_PLACE, buf, count, MPI_DOUBLE, MPI_SUM, ...)`:
`bufs r` is the buffer of rank `r` before the call, the result is the buffer of
rank `r` after it.  The first `count` entries become the sum over all ranks. -/
def MPI_Allreduce_SUM (np count : Nat) (bufs : Nat → Buf) (r : Nat) : Buf :=
  fun k => if k < count then ((List.range np).map (fun s => bufs s k)).sum else bufs r k

/-- The background vector `x_b` held by rank `r` after the reduction;
`y s i j` is component `j` of the latest state of node `i` as stored on rank `s`. -/
def aggregate (N np : Nat) (assignments : Nat → Nat) (y : Nat → Nat → Nat → ℚ)
    (r : Nat) : Buf :=
  MPI_Allreduce_SUM np (assim_dim * N)
    (fun s => fillBackground N assignments s (y s)) r

/-! ## Links needed for fitting and the weight vectors (lines 531-578) -/

/-- Inner loop over `updata->upstreams[j]->location` for one gauge: `ups` is the
list of upstream links of the gauge (as indices into `sys`). -/
def markUpstreams (location : Nat → Nat) (ups : List Nat) (links_needed : Flags) : Flags :=
  ups.foldl (fun f u => Function.update f (location u) true) links_needed

/-- Loop `for (i = 0; i < num_obs; i++) if (assignments[obs_locs[i]] == my_rank) ...`
over the zero-initialised array `links_needed`, as executed on rank `my_rank`. -/
def markNeeded (num_obs : Nat) (obs_locs : Nat → Nat) (assignments : Nat → Nat)
    (location : Nat → Nat) (upstreams : Nat → List Nat) (my_rank : Nat) : Flags :=
  (List.range num_obs).foldl
    (fun f i =>
      if assignments (obs_locs i) = my_rank then
        markUpstreams location (upstreams (obs_locs i))
          (Function.update f (location (obs_locs i)) true)
      else f)
    (fun _ => false)

/-- The collective `MPI_Allreduce(MPI_IN_PLACE, flags, count, MPI_C_BOOL, MPI_LOR, ...)`. -/
def MPI_Allreduce_LOR (np count : Nat) (flags : Nat → Flags) (r : Nat) : Flags :=
  fun k => if k < count then (List.range np).any (fun s => flags s k) else flags r k

/-- The array `links_needed` held by rank `r` after the reduction. -/
def linksNeeded (N np num_obs : Nat) (obs_locs : Nat → Nat) (assignments : Nat → Nat)
    (location : Nat → Nat) (upstreams : Nat → List Nat) (r : Nat) : Flags :=
  MPI_Allreduce_LOR np N
    (fun s => markNeeded num_obs obs_locs assignments location upstreams s) r

/-- A PETSc vector under assembly: the `VecSetValue (.., INSERT_VALUES)` calls
issued so far, oldest first, as (index, value). -/
abbrev VecWrites := List (Nat × ℚ)

/-- The entries of a vector after assembly: the writes inserted in order over
the initial contents. -/
def assemble (init : Buf) (ws : VecWrites) : Buf :=
  ws.foldl (fun b w => Function.update b w.1 w.2) init

/-- Loop filling `ws.B` on rank 0:
`for (i = 0; i < N; i++) if (links_needed[i]) VecSetValue(ws.B, curr_idx++, 1.0, ..)`.
Returns the writes and the final `curr_idx`. -/
def fillB (N : Nat) (links_needed : Flags) : VecWrites × Nat :=
  (List.range N).foldl
    (fun (acc : VecWrites × Nat) i =>
      if links_needed i then (acc.1 ++ [(acc.2, 1)], acc.2 + 1) else acc)
    ([], 0)

/-- The block `unsigned int curr_idx = 0; if (my_rank == 0) { ... }`:
the value of `curr_idx` on rank `my_rank` after the block. -/
def curr_idx (my_rank N : Nat) (links_needed : Flags) : Nat :=
  if my_rank = 0 then (fillB N links_needed).2 else 0

/-- Loop filling `ws.R`:
`for (i < num_obs) for (j < num_steps) VecSetValue(ws.R, j * num_obs + i, 1.0, ..)`. -/
def fillR (num_obs num_steps : Nat) : VecWrites :=
  (List.range num_obs).foldl
    (fun acc i =>
      (List.range num_steps).foldl (fun acc2 j => acc2 ++ [(j * num_obs + i, 1)]) acc)
    []

/-! ## The refinement cycle (lines 766-842) -/

/-- Modelled from the spec: `ComputeDiff` (declared in `assim/ancillary.h`, body not
in this file) is "error = sum of squared differences between d and q". -/
def ComputeDiff (d q : Buf) (size : Nat) : ℚ :=
  ((List.range size).map (fun i => (d i - q i) * (d i - q i))).sum

/-- The memory the external routines can reach through their arguments:
the solver and workspace internals (`world`), `x_start` (`ws.x_start`),
`d_full` (`ws.d_full`) and `q`. -/
structure Mem (σ : Type) where
  world : σ
  x_start : Buf
  d_full : Buf
  q : Buf

/-- The routines called by the cycle whose bodies are in other files. -/
structure Routines (σ : Type) where
  SolveSysLS : Mem σ → Mem σ
  ReduceBadDischargeValues : Mem σ → Mem σ × Bool

/-- One turn of the clipping loop body for index `i` (lines 823-827). -/
def clipStep (x_start : Buf) (analysis : Buf) (i : Nat) : Buf :=
  let a0 := Function.update analysis i (if x_start i > 1e-14 then x_start i else 1e-14)
  let a1 := Function.update a0 (i + 1) (if x_start (i + 1) > 0 then x_start (i + 1) else 0)
  let a2 := Function.update a1 (i + 2) (if x_start (i + 2) > 0 then x_start (i + 2) else 0)
  Function.update a2 (i + 3) (if x_start (i + 3) > 0 then x_start (i + 3) else 0)

/-- The clipping loop `for (i = 0; i < N; i++) { analysis[i] = ...; ... }`. -/
def clipLoop (N : Nat) (x_start : Buf) (analysis : Buf) : Buf :=
  (List.range N).foldl (clipStep x_start) analysis

/-- The rollback loop `for (i = 0; i < allstates; i++) x_start[i] = analysis[i]`. -/
def rollback (allstates : Nat) (analysis : Buf) (x_start : Buf) : Buf :=
  (List.range allstates).foldl (fun b i => Function.update b i (analysis i)) x_start

/-- The variables of one pass of the `for` loop.  `error = none` is the
uninitialised `double error`; `stopped` records that `break` was taken;
`solves` is a ghost counter of the calls of `SolveSysLS` in the cycle so far. -/
structure PassState (σ : Type) where
  mem : Mem σ
  analysis : Buf
  prev_error : ℚ
  error : Option ℚ
  iterations : Nat
  stopped : Bool
  solves : Nat

/-- The body of the `for` loop (lines 796-828). -/
def lsBody {σ : Type} (R : Routines σ) (N allstates num_total_obs : Nat)
    (s : PassState σ) : PassState σ :=
  let iterations := s.iterations + 1
  let mem := R.SolveSysLS s.mem
  let error := ComputeDiff mem.d_full mem.q num_total_obs
  if s.prev_error ≥ 0 ∧ error > s.prev_error then
    { mem := { world := mem.world, x_start := rollback allstates s.analysis mem.x_start,
               d_full := mem.d_full, q := mem.q },
      analysis := s.analysis, prev_error := s.prev_error, error := some error,
      iterations := iterations, stopped := true, solves := s.solves + 1 }
  else
    { mem := mem, analysis := clipLoop N mem.x_start s.analysis, prev_error := error,
      error := some error, iterations := iterations, stopped := false,
      solves := s.solves + 1 }

/-- The loop `for (j = 0; j < max_least_squares_iters; j++)` with `n` turns left. -/
def lsFor {σ : Type} (R : Routines σ) (N allstates num_total_obs : Nat) :
    Nat → PassState σ → PassState σ
  | 0, s => s
  | n + 1, s =>
    let t := lsBody R N allstates num_total_obs s
    if t.stopped then t else lsFor R N allstates num_total_obs n t

/-- The variables at the top of the `do` body:
`int iterations = 0; double error, prev_error = -1.0;`. -/
def passStart {σ : Type} (mem : Mem σ) (analysis : Buf) (solves : Nat) : PassState σ :=
  { mem := mem, analysis := analysis, prev_error := -1, error := none,
    iterations := 0, stopped := false, solves := solves }

/-- One pass: the declarations and the whole `for` loop. -/
def lsPass {σ : Type} (R : Routines σ) (N allstates num_total_obs M : Nat)
    (mem : Mem σ) (analysis : Buf) (solves : Nat) : PassState σ :=
  lsFor R N allstates num_total_obs M (passStart mem analysis solves)

/-- The variables that live across passes.  `passes` (the final state of each
pass, oldest first), `solves` and `reduces` (number of calls of
`ReduceBadDischargeValues`) are ghost. -/
structure CycleState (σ : Type) where
  mem : Mem σ
  analysis : Buf
  try_again : Bool
  passes : List (PassState σ)
  solves : Nat
  reduces : Nat

/-- One execution of the `do { ... }` body (lines 791-841). -/
def cycleBody {σ : Type} (R : Routines σ) (N allstates num_total_obs M : Nat)
    (c : CycleState σ) : CycleState σ :=
  let p := lsPass R N allstates num_total_obs M c.mem c.analysis c.solves
  if !c.try_again then
    let r := R.ReduceBadDischargeValues p.mem
    { mem := r.1, analysis := p.analysis, try_again := r.2, passes := c.passes ++ [p],
      solves := p.solves, reduces := c.reduces + 1 }
  else
    { mem := p.mem, analysis := p.analysis, try_again := false, passes := c.passes ++ [p],
      solves := p.solves, reduces := c.reduces }

/-- The loop `do { ... } while (try_again)`; `none` when the fuel runs out. -/
def doWhile {σ : Type} (R : Routines σ) (N allstates num_total_obs M : Nat) :
    Nat → CycleState σ → Option (CycleState σ)
  | 0, _ => none
  | fuel + 1, c =>
    let c1 := cycleBody R N allstates num_total_obs M c
    if c1.try_again then doWhile R N allstates num_total_obs M fuel c1 else some c1

/-- `memcpy(dst, src, n * sizeof(double))` into a buffer. -/
def memcpy (dst src : Buf) (n : Nat) : Buf :=
  fun k => if k < n then src k else dst k

/-- The state before the `do` loop: `x_start` and `analysis` are zero-initialised
buffers that receive a copy of `x_b`; `try_again = false`. -/
def cycleStart {σ : Type} (allstates : Nat) (world : σ) (x_b d_full : Buf) : CycleState σ :=
  { mem := { world := world, x_start := memcpy calloc x_b allstates, d_full := d_full,
             q := calloc },
    analysis := memcpy calloc x_b allstates, try_again := false, passes := [],
    solves := 0, reduces := 0 }

/-- The analysis part of `main` (lines 766-842) for `N` nodes. -/
def runCycle {σ : Type} (R : Routines σ) (N num_total_obs M fuel : Nat)
    (world : σ) (x_b d_full : Buf) : Option (CycleState σ) :=
  doWhile R N (assim_dim * N) num_total_obs M fuel
    (cycleStart (assim_dim * N) world x_b d_full)

/-- The first pass of the cycle. -/
def firstPass {σ : Type} (R : Routines σ) (N num_total_obs M : Nat)
    (world : σ) (x_b d_full : Buf) : PassState σ :=
  lsPass R N (assim_dim * N) num_total_obs M
    (cycleStart (assim_dim * N) world x_b d_full).mem
    (cycleStart (assim_dim * N) world x_b d_full).analysis 0

/-- The call of `ReduceBadDischargeValues` after the first pass. -/
def mitigation {σ : Type} (R : Routines σ) (N num_total_obs M : Nat)
    (world : σ) (x_b d_full : Buf) : Mem σ × Bool :=
  R.ReduceBadDischargeValues (firstPass R N num_total_obs M world x_b d_full).mem

/-- The pass that follows when `ReduceBadDischargeValues` returned true. -/
def secondPass {σ : Type} (R : Routines σ) (N num_total_obs M : Nat)
    (world : σ) (x_b d_full : Buf) : PassState σ :=
  lsPass R N (assim_dim * N) num_total_obs M
    (mitigation R N num_total_obs M world x_b d_full).1
    (firstPass R N num_total_obs M world x_b d_full).analysis
    (firstPass R N num_total_obs M world x_b d_full).solves

/-- The error of iteration `j` of a pass started on `mem` in which no earlier
iteration rolled back: accepted iterations change the memory only through
`SolveSysLS`, so it is `ComputeDiff` after `j` calls of the solver. -/
def errorAt {σ : Type} (R : Routines σ) (num_total_obs : Nat) (mem : Mem σ) (j : Nat) : ℚ :=
  ComputeDiff (R.SolveSysLS^[j] mem).d_full (R.SolveSysLS^[j] mem).q num_total_obs

/-! ## Snapshot preparation (lines 883-898) -/

/-- The writes to `analysis` issued by the clipping loop for a given trial state,
in program order: for each `i < N` the four assignments of the loop body. -/
def clipWrites (N : Nat) (x_start : Buf) : VecWrites :=
  (List.range N).foldl
    (fun acc i => acc ++
      [(i, if x_start i > 1e-14 then x_start i else 1e-14),
       (i + 1, if x_start (i + 1) > 0 then x_start (i + 1) else 0),
       (i + 2, if x_start (i + 2) > 0 then x_start (i + 2) else 0),
       (i + 3, if x_start (i + 3) > 0 then x_start (i + 3) else 0)])
    []

/-- A forward model that reproduces the observations exactly: every call of the
solver returns `q = d_full`; no observation is ever replaced. -/
def perfectRoutines : Routines Unit :=
  { SolveSysLS := fun m =>
      { world := (), x_start := m.x_start, d_full := m.d_full, q := m.d_full },
    ReduceBadDischargeValues := fun m => (m, false) }

/-- Every observation equal to 10.0, trial state and prediction zero. -/
def tenMem : Mem Unit :=
  { world := (), x_start := calloc, d_full := fun _ => 10, q := calloc }


/-- A solver whose prediction `q` moves one unit further from the observations at
every call and which leaves the trial state alone; no observation is ever replaced. -/
def driftRoutines : Routines Unit :=
  { SolveSysLS := fun m =>
      { world := (), x_start := m.x_start, d_full := m.d_full, q := fun i => m.q i + 1 },
    ReduceBadDischargeValues := fun m => (m, false) }

/-- All buffers zero. -/
def zeroMem : Mem Unit :=
  { world := (), x_start := calloc, d_full := calloc, q := calloc }

/-- A solver that drives the discharge of node 1 (index 4) negative and leaves
everything else alone; no observation is ever replaced. -/
def sinkRoutines : Routines Unit :=
  { SolveSysLS := fun m =>
      { world := (), x_start := Function.update m.x_start 4 (-1), d_full := m.d_full,
        q := m.q },
    ReduceBadDischargeValues := fun m => (m, false) }

/-- Nodes dealt to two ranks in turn. -/
def alternating : Nat → Nat := fun i => i % 2

/-- A per-rank view of the node states with pairwise different entries. -/
def sampleStates : Nat → Nat → Nat → ℚ := fun r i j => (100 * r + 10 * i + j : Nat)

/-- Node states that do not depend on the rank. -/
def sharedStates : Nat → Nat → ℚ := fun i j => (10 * i + j : Nat)

/-- Gauge `i` sits at link `i`. -/
def gaugeAt : Nat → Nat := fun i => i

/-- Every gauge has link 2 as its only upstream link. -/
def upstreamTwo : Nat → List Nat := fun _ => [2]

/-- No gauge has an upstream link. -/
def noUpstream : Nat → List Nat := fun _ => []

/-! ## Facts about the aggregation -/

/-- The inner loop writes the four components of node `i` and nothing else. -/
theorem fillNode_apply (y : Nat → Nat → ℚ) (b : Buf) (i k : Nat) :
    fillNode y b i k =
      if i * 4 ≤ k ∧ k < i * 4 + 4 then y i (k - i * 4) else b k := by
  have hr : List.range 4 = [0, 1, 2, 3] := rfl
  simp only [fillNode, assim_dim, hr, List.foldl, Function.update_apply]
  by_cases h3 : k = i * 4 + 3
  · subst h3
    simp
  by_cases h2 : k = i * 4 + 2
  · subst h2
    simp
  by_cases h1 : k = i * 4 + 1
  · subst h1
    simp
  by_cases h0 : k = i * 4 + 0
  · subst h0
    simp
  · have hout : ¬ (i * 4 ≤ k ∧ k < i * 4 + 4) := by omega
    rw [if_neg h3, if_neg h2, if_neg h1, if_neg h0, if_neg hout]

/-- Before the reduction a rank holds the states of its own nodes and zeros. -/
theorem fillBackground_apply (N : Nat) (a : Nat → Nat) (r : Nat) (y : Nat → Nat → ℚ)
    (k : Nat) :
    fillBackground N a r y k =
      if k < 4 * N ∧ a (k / 4) = r then y (k / 4) (k % 4) else 0 := by
  unfold fillBackground
  induction N with
  | zero => simp [calloc]
  | succ n ih =>
    rw [List.range_succ, List.foldl_append]
    simp only [List.foldl_cons, List.foldl_nil]
    by_cases hk : n * 4 ≤ k ∧ k < n * 4 + 4
    · have hdiv : k / 4 = n := by omega
      have hmod : k % 4 = k - n * 4 := by omega
      have hlt : k < 4 * (n + 1) := by omega
      by_cases ha : a n = r
      · rw [if_pos ha, fillNode_apply, if_pos hk, hdiv, if_pos ⟨hlt, ha⟩, hmod]
      · rw [if_neg ha, ih, hdiv]
        have h1 : ¬ (k < 4 * n ∧ a n = r) := fun h => ha h.2
        have h2 : ¬ (k < 4 * (n + 1) ∧ a n = r) := fun h => ha h.2
        rw [if_neg h1, if_neg h2]
    · have hrest : fillNode y
          (List.foldl (fun b i => if a i = r then fillNode y b i else b) calloc (List.range n))
          n k =
          List.foldl (fun b i => if a i = r then fillNode y b i else b) calloc (List.range n) k := by
        rw [fillNode_apply, if_neg hk]
      have hstep : (if a n = r then fillNode y
          (List.foldl (fun b i => if a i = r then fillNode y b i else b) calloc (List.range n)) n
          else List.foldl (fun b i => if a i = r then fillNode y b i else b) calloc (List.range n)) k
          = List.foldl (fun b i => if a i = r then fillNode y b i else b) calloc (List.range n) k := by
        split
        · exact hrest
        · rfl
      rw [hstep, ih]
      by_cases hkn : k < 4 * n
      · have : k < 4 * (n + 1) := by omega
        simp [hkn, this]
      · have : ¬ k < 4 * (n + 1) := by omega
        simp [hkn, this]

/-- A sum over the ranks in which only rank `o` contributes. -/
theorem sum_single_owner (np o : Nat) (v : Nat → ℚ) :
    ((List.range np).map (fun s => if o = s then v s else 0)).sum =
      if o < np then v o else 0 := by
  induction np with
  | zero => simp
  | succ n ih =>
    rw [List.range_succ, List.map_append, List.sum_append, ih]
    simp only [List.map_cons, List.map_nil, List.sum_cons, List.sum_nil, add_zero]
    by_cases h1 : o < n
    · have h2 : o ≠ n := by omega
      have h3 : o < n + 1 := by omega
      simp [h1, h2, h3]
    · by_cases h2 : o = n
      · subst h2
        simp
      · have h3 : ¬ o < n + 1 := by omega
        simp [h1, h2, h3]

/-- After the reduction every entry below `4 * N` is the owner's value. -/
theorem aggregate_apply (N np : Nat) (a : Nat → Nat) (y : Nat → Nat → Nat → ℚ)
    (r k : Nat) :
    aggregate N np a y r k =
      if k < 4 * N ∧ a (k / 4) < np then y (a (k / 4)) (k / 4) (k % 4) else 0 := by
  unfold aggregate MPI_Allreduce_SUM
  simp only [assim_dim]
  by_cases hk : k < 4 * N
  · rw [if_pos hk]
    have hfun : (fun s => fillBackground N a s (y s) k) =
        (fun s => if a (k / 4) = s then (fun t => y t (k / 4) (k % 4)) s else 0) := by
      funext s
      rw [fillBackground_apply]
      simp [hk]
    rw [hfun, sum_single_owner]
    simp [hk]
  · rw [if_neg hk, fillBackground_apply]
    simp [hk]

/-! ## Facts about the needed links and the weight vectors -/

/-- The inner loop sets the flags of the listed upstream links and keeps the rest. -/
theorem markUpstreams_true (loc : Nat → Nat) (ups : List Nat) :
    ∀ (f : Flags) (n : Nat),
      markUpstreams loc ups f n = true ↔ f n = true ∨ ∃ u ∈ ups, loc u = n := by
  unfold markUpstreams
  induction ups with
  | nil => intro f n; simp
  | cons u us ih =>
    intro f n
    rw [List.foldl_cons, ih]
    by_cases h : loc u = n
    · subst h
      simp
    · rw [Function.update_noteq (Ne.symm h)]
      simp [h]

/-- Before the reduction a rank has flagged the gauges it owns and their
upstream links. -/
theorem markNeeded_true (num_obs : Nat) (obs a loc : Nat → Nat) (ups : Nat → List Nat)
    (r n : Nat) :
    markNeeded num_obs obs a loc ups r n = true ↔
      ∃ i, i < num_obs ∧ a (obs i) = r ∧
        (loc (obs i) = n ∨ ∃ u ∈ ups (obs i), loc u = n) := by
  unfold markNeeded
  induction num_obs with
  | zero => simp
  | succ m ih =>
    rw [List.range_succ, List.foldl_append]
    simp only [List.foldl_cons, List.foldl_nil]
    by_cases ha : a (obs m) = r
    · rw [if_pos ha, markUpstreams_true]
      constructor
      · rintro (h | h)
        · by_cases hn : loc (obs m) = n
          · exact ⟨m, Nat.lt_succ_self m, ha, Or.inl hn⟩
          · rw [Function.update_noteq (Ne.symm hn)] at h
            obtain ⟨i, hi, h2⟩ := ih.mp h
            exact ⟨i, Nat.lt_succ_of_lt hi, h2⟩
        · exact ⟨m, Nat.lt_succ_self m, ha, Or.inr h⟩
      · rintro ⟨i, hi, hai, h⟩
        by_cases him : i = m
        · subst him
          rcases h with h | h
          · left
            rw [← h]
            simp
          · exact Or.inr h
        · left
          have hold := ih.mpr ⟨i, by omega, hai, h⟩
          by_cases hn : loc (obs m) = n
          · rw [← hn]
            simp
          · rw [Function.update_noteq (Ne.symm hn)]
            exact hold
    · rw [if_neg ha, ih]
      constructor
      · rintro ⟨i, hi, h2⟩
        exact ⟨i, Nat.lt_succ_of_lt hi, h2⟩
      · rintro ⟨i, hi, hai, h⟩
        have him : i ≠ m := by
          rintro rfl
          exact ha hai
        exact ⟨i, by omega, hai, h⟩

/-- After the reduction a flag below `N` is set exactly when some rank below `np`
owns a gauge that is, or lies downstream of, that link. -/
theorem linksNeeded_true (N np num_obs : Nat) (obs a loc : Nat → Nat)
    (ups : Nat → List Nat) (r n : Nat) (hn : n < N) :
    linksNeeded N np num_obs obs a loc ups r n = true ↔
      ∃ i, i < num_obs ∧ a (obs i) < np ∧
        (loc (obs i) = n ∨ ∃ u ∈ ups (obs i), loc u = n) := by
  unfold linksNeeded MPI_Allreduce_LOR
  rw [if_pos hn, List.any_eq_true]
  constructor
  · rintro ⟨s, hs, h⟩
    obtain ⟨i, hi, hai, h2⟩ := (markNeeded_true num_obs obs a loc ups s n).mp h
    exact ⟨i, hi, by rw [hai]; exact List.mem_range.mp hs, h2⟩
  · rintro ⟨i, hi, hai, h2⟩
    exact ⟨a (obs i), List.mem_range.mpr hai,
      (markNeeded_true num_obs obs a loc ups _ n).mpr ⟨i, hi, rfl, h2⟩⟩

/-- With `location` the identity on nodes, well-formed gauges and upstream lists,
and every gauge owned by a rank below `np`, a flag below `N` is set after the
reduction exactly for the gauges and the links upstream of a gauge. -/
theorem linksNeeded_iff (N np num_obs : Nat) (obs a loc : Nat → Nat)
    (ups : Nat → List Nat)
    (hloc : ∀ k, k < N → loc k = k)
    (hobs : ∀ i, i < num_obs → obs i < N)
    (hups : ∀ i, i < num_obs → ∀ u ∈ ups (obs i), u < N)
    (hown : ∀ i, i < num_obs → a (obs i) < np) (r n : Nat) (hn : n < N) :
    linksNeeded N np num_obs obs a loc ups r n = true ↔
      ∃ i, i < num_obs ∧ (n = obs i ∨ n ∈ ups (obs i)) := by
  rw [linksNeeded_true N np num_obs obs a loc ups r n hn]
  constructor
  · rintro ⟨i, hi, _, h⟩
    refine ⟨i, hi, ?_⟩
    rcases h with h | ⟨u, hu, h⟩
    · left
      rw [← h, hloc _ (hobs i hi)]
    · right
      rw [← h, hloc _ (hups i hi u hu)]
      exact hu
  · rintro ⟨i, hi, h⟩
    refine ⟨i, hi, hown i hi, ?_⟩
    rcases h with h | h
    · left
      rw [h, hloc _ (hobs i hi)]
    · right
      exact ⟨n, h, hloc _ hn⟩

/-- The counter of the `B` loop is the number of flags set below `N`. -/
theorem fillB_count (N : Nat) (f : Flags) :
    (fillB N f).2 = ((List.range N).filter (fun i => f i)).length := by
  unfold fillB
  induction N with
  | zero => simp
  | succ n ih =>
    rw [List.range_succ, List.foldl_append, List.filter_append, List.length_append, ← ih]
    simp only [List.foldl_cons, List.foldl_nil]
    by_cases h : f n = true
    · simp [h]
    · simp [h]

/-- The number of flags set below `N` is the size of the set of flagged links. -/
theorem filter_length_eq_card (N : Nat) (f : Flags) (S : Finset Nat)
    (hS : ∀ n, n ∈ S ↔ n < N ∧ f n = true) :
    ((List.range N).filter (fun i => f i)).length = S.card := by
  have hnd : ((List.range N).filter (fun i => f i)).Nodup :=
    (List.nodup_range N).filter _
  rw [← List.toFinset_card_of_nodup hnd]
  congr 1
  ext n
  rw [hS]
  simp

/-- The inner loop of the `R` fill appends one write per step. -/
theorem fillR_inner (n i m : Nat) (acc : VecWrites) :
    (List.range m).foldl (fun acc2 j => acc2 ++ [(j * n + i, (1 : ℚ))]) acc =
      acc ++ (List.range m).map (fun j => (j * n + i, (1 : ℚ))) := by
  induction m with
  | zero => simp
  | succ k ih =>
    rw [List.range_succ, List.foldl_append, ih, List.map_append]
    simp

/-- The writes of the `R` fill, in the order the loops issue them. -/
theorem fillR_eq (n m : Nat) :
    fillR n m =
      (List.range n).flatMap (fun i => (List.range m).map (fun j => (j * n + i, (1 : ℚ)))) := by
  unfold fillR
  have hgen : ∀ (k : Nat),
      (List.range k).foldl
        (fun acc i =>
          (List.range m).foldl (fun acc2 j => acc2 ++ [(j * n + i, (1 : ℚ))]) acc) [] =
      (List.range k).flatMap (fun i => (List.range m).map (fun j => (j * n + i, (1 : ℚ)))) := by
    intro k
    induction k with
    | zero => simp
    | succ k ih =>
      rw [List.range_succ, List.foldl_append, ih, List.flatMap_append]
      simp [fillR_inner]
  exact hgen n

/-- Membership in the writes of the `R` fill. -/
theorem mem_fillR (n m : Nat) (w : Nat × ℚ) :
    w ∈ fillR n m ↔ ∃ i j, i < n ∧ j < m ∧ w = (j * n + i, 1) := by
  rw [fillR_eq]
  simp only [List.mem_flatMap, List.mem_range, List.mem_map]
  constructor
  · rintro ⟨i, hi, j, hj, rfl⟩
    exact ⟨i, j, hi, hj, rfl⟩
  · rintro ⟨i, j, hi, hj, rfl⟩
    exact ⟨i, hi, j, hj, rfl⟩

/-- The indices written by the `R` fill are pairwise different. -/
theorem fillR_indices_nodup (n m : Nat) : ((fillR n m).map Prod.fst).Nodup := by
  rw [fillR_eq, List.map_flatMap]
  rw [List.nodup_flatMap]
  constructor
  · intro i hi
    have hi2 := List.mem_range.mp hi
    rw [List.map_map]
    apply List.Nodup.map_on _ (List.nodup_range m)
    intro j _ j2 _ h
    simp only [Function.comp] at h
    have hn : 0 < n := by omega
    have := Nat.eq_of_mul_eq_mul_right hn (Nat.add_right_cancel h)
    exact this
  · apply List.Pairwise.imp_of_mem _ (List.nodup_range n)
    intro i i2 hi hi2 hne
    have hi1 := List.mem_range.mp hi
    have hi3 := List.mem_range.mp hi2
    simp only [Function.onFun, List.disjoint_left, List.map_map, List.mem_map, List.mem_range,
      Function.comp, not_exists, not_and]
    rintro k ⟨j, _, rfl⟩ j2 _ h
    apply hne
    have h1 : (j * n + i) % n = i := by
      rw [Nat.mul_add_mod_of_lt hi1]
    have h2 : (j2 * n + i2) % n = i2 := by
      rw [Nat.mul_add_mod_of_lt hi3]
    rw [← h1, ← h2, h]

/-- The indices written by the `R` fill are exactly those below `m * n`. -/
theorem mem_fillR_indices (n m k : Nat) :
    k ∈ (fillR n m).map Prod.fst ↔ k < m * n := by
  simp only [List.mem_map, mem_fillR]
  constructor
  · rintro ⟨w, ⟨i, j, hi, hj, rfl⟩, rfl⟩
    show j * n + i < m * n
    calc j * n + i < j * n + n := by omega
      _ = (j + 1) * n := by ring
      _ ≤ m * n := Nat.mul_le_mul_right n hj
  · intro hk
    have hn : 0 < n := by
      rcases Nat.eq_zero_or_pos n with h | h
      · subst h
        simp at hk
      · exact h
    refine ⟨(k / n * n + k % n, 1), ⟨k % n, k / n, Nat.mod_lt k hn, ?_, rfl⟩, ?_⟩
    · exact (Nat.div_lt_iff_lt_mul hn).mpr hk
    · show k / n * n + k % n = k
      rw [Nat.mul_comm]
      exact Nat.div_add_mod k n

/-- Assembling writes that all carry the value 1. -/
theorem assemble_ones (ws : VecWrites) (hws : ∀ w ∈ ws, w.2 = 1) :
    ∀ (init : Buf) (k : Nat),
      assemble init ws k = if k ∈ ws.map Prod.fst then 1 else init k := by
  unfold assemble
  induction ws with
  | nil => intro init k; simp
  | cons w ws ih =>
    intro init k
    rw [List.foldl_cons, ih (fun v hv => hws v (List.mem_cons_of_mem _ hv))]
    have hw : w.2 = 1 := hws w (List.mem_cons_self _ _)
    by_cases h1 : k ∈ ws.map Prod.fst
    · have h2 : k ∈ (w :: ws).map Prod.fst := by
        rw [List.map_cons]
        exact List.mem_cons_of_mem _ h1
      rw [if_pos h1, if_pos h2]
    · rw [if_neg h1]
      by_cases h3 : k = w.1
      · subst h3
        simp [hw]
      · rw [Function.update_noteq h3]
        have h2 : k ∉ (w :: ws).map Prod.fst := by
          rw [List.map_cons, List.mem_cons]
          rintro (h | h)
          · exact h3 h
          · exact h1 h
        rw [if_neg h2]

/-! ## Facts about the refinement cycle -/

/-- A sum of squares is not negative. -/
theorem ComputeDiff_nonneg (d q : Buf) (size : Nat) : 0 ≤ ComputeDiff d q size := by
  unfold ComputeDiff
  apply List.sum_nonneg
  intro x hx
  obtain ⟨i, _, rfl⟩ := List.mem_map.mp hx
  exact mul_self_nonneg _

/-- Each turn of the loop body counts one iteration. -/
theorem lsBody_iterations {σ : Type} (R : Routines σ) (N allstates nto : Nat)
    (s : PassState σ) : (lsBody R N allstates nto s).iterations = s.iterations + 1 := by
  unfold lsBody
  dsimp only
  split <;> rfl

/-- Each turn of the loop body calls `SolveSysLS` once. -/
theorem lsBody_solves {σ : Type} (R : Routines σ) (N allstates nto : Nat)
    (s : PassState σ) : (lsBody R N allstates nto s).solves = s.solves + 1 := by
  unfold lsBody
  dsimp only
  split <;> rfl

/-- An accepted turn records a non-negative previous error. -/
theorem lsBody_prev_error_nonneg {σ : Type} (R : Routines σ) (N allstates nto : Nat)
    (s : PassState σ) (h : (lsBody R N allstates nto s).stopped = false) :
    0 ≤ (lsBody R N allstates nto s).prev_error := by
  unfold lsBody at h ⊢
  dsimp only at h ⊢
  split
  · rename_i hc
    simp [hc] at h
  · exact ComputeDiff_nonneg _ _ _

/-- An accepted turn records its error as the previous error. -/
theorem lsBody_error {σ : Type} (R : Routines σ) (N allstates nto : Nat)
    (s : PassState σ) (h : (lsBody R N allstates nto s).stopped = false) :
    (lsBody R N allstates nto s).error = some (lsBody R N allstates nto s).prev_error := by
  unfold lsBody at h ⊢
  dsimp only at h ⊢
  split
  · rename_i hc
    simp [hc] at h
  · rfl

/-- The first turn of a pass is never a rollback. -/
theorem lsBody_passStart {σ : Type} (R : Routines σ) (N allstates nto : Nat)
    (mem : Mem σ) (analysis : Buf) (solves : Nat) :
    lsBody R N allstates nto (passStart mem analysis solves) =
      { mem := R.SolveSysLS mem,
        analysis := clipLoop N (R.SolveSysLS mem).x_start analysis,
        prev_error := ComputeDiff (R.SolveSysLS mem).d_full (R.SolveSysLS mem).q nto,
        error := some (ComputeDiff (R.SolveSysLS mem).d_full (R.SolveSysLS mem).q nto),
        iterations := 1, stopped := false, solves := solves + 1 } := by
  have hneg : ¬ ((0 : ℚ) ≤ -1) := by norm_num
  simp [lsBody, passStart, hneg]

/-- The loop never runs more turns than it has left, and counts the solver
calls one for one with the iterations. -/
theorem lsFor_counts {σ : Type} (R : Routines σ) (N allstates nto : Nat) :
    ∀ (n : Nat) (s : PassState σ),
      (lsFor R N allstates nto n s).iterations ≤ s.iterations + n ∧
      s.iterations ≤ (lsFor R N allstates nto n s).iterations ∧
      (lsFor R N allstates nto n s).solves + s.iterations =
        s.solves + (lsFor R N allstates nto n s).iterations := by
  intro n
  induction n with
  | zero => intro s; simp [lsFor]
  | succ n ih =>
    intro s
    have hi := lsBody_iterations R N allstates nto s
    have hs := lsBody_solves R N allstates nto s
    simp only [lsFor]
    split
    · omega
    · have := ih (lsBody R N allstates nto s)
      omega

/-- A loop that has not stopped has used all its turns. -/
theorem lsFor_running {σ : Type} (R : Routines σ) (N allstates nto : Nat) :
    ∀ (n : Nat) (s : PassState σ), (lsFor R N allstates nto n s).stopped = false →
      (lsFor R N allstates nto n s).iterations = s.iterations + n := by
  intro n
  induction n with
  | zero => intro s _; simp [lsFor]
  | succ n ih =>
    intro s h
    have hi := lsBody_iterations R N allstates nto s
    simp only [lsFor] at h ⊢
    split
    · rename_i hc
      simp [hc] at h
    · rename_i hc
      simp only [hc] at h
      have := ih (lsBody R N allstates nto s) (by simpa using h)
      omega

/-- After at least one turn, a loop that has not stopped holds a non-negative
previous error. -/
theorem lsFor_prev_error_nonneg {σ : Type} (R : Routines σ) (N allstates nto : Nat) :
    ∀ (n : Nat) (s : PassState σ), (lsFor R N allstates nto (n + 1) s).stopped = false →
      0 ≤ (lsFor R N allstates nto (n + 1) s).prev_error := by
  intro n
  induction n with
  | zero =>
    intro s h
    simp only [lsFor] at h ⊢
    split
    · rename_i hc
      simp [hc] at h
    · rename_i hc
      exact lsBody_prev_error_nonneg R N allstates nto s (by simpa using hc)
  | succ n ih =>
    intro s h
    rw [lsFor] at h ⊢
    split
    · rename_i hc
      simp [hc] at h
    · rename_i hc
      simp only [hc] at h
      exact ih (lsBody R N allstates nto s) (by simpa using h)

/-- After at least one turn, a loop that has not stopped has recorded its last
error as the previous error. -/
theorem lsFor_error {σ : Type} (R : Routines σ) (N allstates nto : Nat) :
    ∀ (n : Nat) (s : PassState σ), (lsFor R N allstates nto (n + 1) s).stopped = false →
      (lsFor R N allstates nto (n + 1) s).error =
        some (lsFor R N allstates nto (n + 1) s).prev_error := by
  intro n
  induction n with
  | zero =>
    intro s h
    simp only [lsFor] at h ⊢
    split
    · rename_i hc
      simp [hc] at h
    · rename_i hc
      exact lsBody_error R N allstates nto s (by simpa using hc)
  | succ n ih =>
    intro s h
    rw [lsFor] at h ⊢
    split
    · rename_i hc
      simp [hc] at h
    · rename_i hc
      simp only [hc] at h
      exact ih (lsBody R N allstates nto s) (by simpa using h)

/-- A loop of `a + b` turns whose first `a` turns did not stop continues from
the state after those `a` turns. -/
theorem lsFor_add {σ : Type} (R : Routines σ) (N allstates nto : Nat) (b : Nat) :
    ∀ (a : Nat) (s : PassState σ), (lsFor R N allstates nto a s).stopped = false →
      lsFor R N allstates nto (a + b) s =
        lsFor R N allstates nto b (lsFor R N allstates nto a s) := by
  intro a
  induction a with
  | zero => intro s _; simp [lsFor]
  | succ a ih =>
    intro s h
    rw [Nat.add_right_comm, lsFor]
    rw [lsFor] at h ⊢
    split
    · rename_i hc
      simp [hc] at h
    · rename_i hc
      simp only [hc] at h
      exact ih (lsBody R N allstates nto s) (by simpa using h)

/-- The rollback loop copies `analysis` below `allstates` and nothing else. -/
theorem rollback_apply (allstates : Nat) (analysis x_start : Buf) (k : Nat) :
    rollback allstates analysis x_start k =
      if k < allstates then analysis k else x_start k := by
  unfold rollback
  induction allstates with
  | zero => simp
  | succ n ih =>
    rw [List.range_succ, List.foldl_append]
    simp only [List.foldl_cons, List.foldl_nil]
    by_cases hk : k = n
    · subst hk
      simp
    · rw [Function.update_noteq hk, ih]
      have hiff : k < n + 1 ↔ k < n := by omega
      simp only [hiff]

/-- A turn whose error exceeds a non-negative previous error rolls back. -/
theorem lsBody_worse {σ : Type} (R : Routines σ) (N allstates nto : Nat)
    (s : PassState σ) (hprev : 0 ≤ s.prev_error)
    (hworse : ComputeDiff (R.SolveSysLS s.mem).d_full (R.SolveSysLS s.mem).q nto
      > s.prev_error) :
    lsBody R N allstates nto s =
      { mem := { world := (R.SolveSysLS s.mem).world,
                 x_start := rollback allstates s.analysis (R.SolveSysLS s.mem).x_start,
                 d_full := (R.SolveSysLS s.mem).d_full, q := (R.SolveSysLS s.mem).q },
        analysis := s.analysis, prev_error := s.prev_error,
        error := some (ComputeDiff (R.SolveSysLS s.mem).d_full (R.SolveSysLS s.mem).q nto),
        iterations := s.iterations + 1, stopped := true, solves := s.solves + 1 } := by
  unfold lsBody
  dsimp only
  rw [if_pos ⟨hprev, hworse⟩]

/-- Two executions of the `do` body always suffice: the first calls
`ReduceBadDischargeValues`, the second (if any) clears `try_again`. -/
theorem doWhile_two {σ : Type} (R : Routines σ) (N allstates nto M fuel : Nat)
    (c : CycleState σ) :
    doWhile R N allstates nto M (fuel + 2) c =
      some (if (cycleBody R N allstates nto M c).try_again then
              cycleBody R N allstates nto M (cycleBody R N allstates nto M c)
            else cycleBody R N allstates nto M c) := by
  rw [doWhile]
  by_cases h1 : (cycleBody R N allstates nto M c).try_again = true
  · rw [if_pos h1, if_pos h1, doWhile]
    have h2 : (cycleBody R N allstates nto M
        (cycleBody R N allstates nto M c)).try_again = false := by
      generalize cycleBody R N allstates nto M c = c1 at h1
      simp [cycleBody, h1]
    simp [h2]
  · rw [if_neg h1, if_neg h1]

/-- What one execution of the `do` body does when `try_again` is still false. -/
theorem cycleBody_first {σ : Type} (R : Routines σ) (N allstates nto M : Nat)
    (c : CycleState σ) (hc : c.try_again = false) :
    cycleBody R N allstates nto M c =
      { mem := (R.ReduceBadDischargeValues
                  (lsPass R N allstates nto M c.mem c.analysis c.solves).mem).1,
        analysis := (lsPass R N allstates nto M c.mem c.analysis c.solves).analysis,
        try_again := (R.ReduceBadDischargeValues
                  (lsPass R N allstates nto M c.mem c.analysis c.solves).mem).2,
        passes := c.passes ++ [lsPass R N allstates nto M c.mem c.analysis c.solves],
        solves := (lsPass R N allstates nto M c.mem c.analysis c.solves).solves,
        reduces := c.reduces + 1 } := by
  simp [cycleBody, hc]

/-- What one execution of the `do` body does when `try_again` is already true. -/
theorem cycleBody_retry {σ : Type} (R : Routines σ) (N allstates nto M : Nat)
    (c : CycleState σ) (hc : c.try_again = true) :
    cycleBody R N allstates nto M c =
      { mem := (lsPass R N allstates nto M c.mem c.analysis c.solves).mem,
        analysis := (lsPass R N allstates nto M c.mem c.analysis c.solves).analysis,
        try_again := false,
        passes := c.passes ++ [lsPass R N allstates nto M c.mem c.analysis c.solves],
        solves := (lsPass R N allstates nto M c.mem c.analysis c.solves).solves,
        reduces := c.reduces } := by
  simp [cycleBody, hc]

/-- A pass performs at most `M` iterations and one solver call per iteration. -/
theorem lsPass_counts {σ : Type} (R : Routines σ) (N allstates nto M : Nat)
    (mem : Mem σ) (analysis : Buf) (solves : Nat) :
    (lsPass R N allstates nto M mem analysis solves).iterations ≤ M ∧
    (lsPass R N allstates nto M mem analysis solves).solves =
      solves + (lsPass R N allstates nto M mem analysis solves).iterations := by
  have h := lsFor_counts R N allstates nto M (passStart mem analysis solves)
  simp only [passStart] at h
  unfold lsPass passStart
  omega

/-- The whole cycle, unfolded: the first pass, the call of
`ReduceBadDischargeValues`, and the second pass when it returned true. -/
theorem runCycle_eq {σ : Type} (R : Routines σ) (N nto M fuel : Nat)
    (world : σ) (x_b d_full : Buf) :
    runCycle R N nto M (fuel + 2) world x_b d_full =
      some
        (if (mitigation R N nto M world x_b d_full).2 = true then
          { mem := (secondPass R N nto M world x_b d_full).mem,
            analysis := (secondPass R N nto M world x_b d_full).analysis,
            try_again := false,
            passes := [firstPass R N nto M world x_b d_full,
                       secondPass R N nto M world x_b d_full],
            solves := (secondPass R N nto M world x_b d_full).solves,
            reduces := 1 }
         else
          { mem := (mitigation R N nto M world x_b d_full).1,
            analysis := (firstPass R N nto M world x_b d_full).analysis,
            try_again := false,
            passes := [firstPass R N nto M world x_b d_full],
            solves := (firstPass R N nto M world x_b d_full).solves,
            reduces := 1 }) := by
  unfold runCycle
  rw [doWhile_two]
  have h0 : (cycleStart (assim_dim * N) world x_b d_full).try_again = false := rfl
  rw [cycleBody_first R N (assim_dim * N) nto M _ h0]
  have hs : (cycleStart (assim_dim * N) world x_b d_full).solves = 0 := rfl
  have hp : (cycleStart (assim_dim * N) world x_b d_full).passes = [] := rfl
  have hr : (cycleStart (assim_dim * N) world x_b d_full).reduces = 0 := rfl
  rw [hs, hp, hr]
  by_cases hb : (mitigation R N nto M world x_b d_full).2 = true
  · have hb2 := hb
    unfold mitigation firstPass at hb2
    rw [if_pos hb, if_pos hb2, cycleBody_retry _ _ _ _ _ _ hb2]
    rfl
  · have hb2 := hb
    unfold mitigation firstPass at hb2
    rw [if_neg hb, if_neg hb2]
    simp only [Bool.not_eq_true] at hb2
    simp [hb2, mitigation, firstPass]

/-- A turn whose error does not exceed a non-negative previous error, or which
is the first of its pass, is accepted. -/
theorem lsBody_accept {σ : Type} (R : Routines σ) (N allstates nto : Nat)
    (s : PassState σ)
    (h : ¬ (s.prev_error ≥ 0 ∧
      ComputeDiff (R.SolveSysLS s.mem).d_full (R.SolveSysLS s.mem).q nto > s.prev_error)) :
    lsBody R N allstates nto s =
      { mem := R.SolveSysLS s.mem,
        analysis := clipLoop N (R.SolveSysLS s.mem).x_start s.analysis,
        prev_error := ComputeDiff (R.SolveSysLS s.mem).d_full (R.SolveSysLS s.mem).q nto,
        error := some (ComputeDiff (R.SolveSysLS s.mem).d_full (R.SolveSysLS s.mem).q nto),
        iterations := s.iterations + 1, stopped := false, solves := s.solves + 1 } := by
  unfold lsBody
  dsimp only
  rw [if_neg h]

/-- The error of turn `n + 1` is measured after one more solver call. -/
theorem errorAt_succ {σ : Type} (R : Routines σ) (nto : Nat) (mem : Mem σ) (n : Nat) :
    ComputeDiff (R.SolveSysLS (R.SolveSysLS^[n] mem)).d_full
      (R.SolveSysLS (R.SolveSysLS^[n] mem)).q nto = errorAt R nto mem (n + 1) := by
  unfold errorAt
  rw [Function.iterate_succ_apply']

/-- A loop with one turn left executes the body once. -/
theorem lsFor_one {σ : Type} (R : Routines σ) (N allstates nto : Nat) (s : PassState σ) :
    lsFor R N allstates nto 1 s = lsBody R N allstates nto s := by
  rw [lsFor]
  split
  · rfl
  · rw [lsFor]

/-- As long as no error exceeds its predecessor, the loop accepts every turn:
after `n` turns it has not stopped, the memory is the result of `n` solver
calls and the recorded previous error is the error of turn `n`. -/
theorem lsFor_accepting {σ : Type} (R : Routines σ) (N allstates nto : Nat)
    (mem : Mem σ) (analysis : Buf) (solves : Nat) :
    ∀ (n : Nat),
      (∀ j, 2 ≤ j → j ≤ n → errorAt R nto mem j ≤ errorAt R nto mem (j - 1)) →
      (lsFor R N allstates nto n (passStart mem analysis solves)).stopped = false ∧
      (lsFor R N allstates nto n (passStart mem analysis solves)).mem =
        R.SolveSysLS^[n] mem ∧
      (lsFor R N allstates nto n (passStart mem analysis solves)).prev_error =
        (if n = 0 then -1 else errorAt R nto mem n) ∧
      (lsFor R N allstates nto n (passStart mem analysis solves)).error =
        (if n = 0 then none else some (errorAt R nto mem n)) := by
  intro n
  induction n with
  | zero =>
    intro _
    exact ⟨rfl, rfl, rfl, rfl⟩
  | succ n ih =>
    intro h
    obtain ⟨hstop, hmem, hprev, _⟩ := ih (fun j hj hjn => h j hj (Nat.le_succ_of_le hjn))
    rw [lsFor_add R N allstates nto 1 n _ hstop, lsFor_one]
    have herr : ComputeDiff
        (R.SolveSysLS (lsFor R N allstates nto n (passStart mem analysis solves)).mem).d_full
        (R.SolveSysLS (lsFor R N allstates nto n (passStart mem analysis solves)).mem).q nto
        = errorAt R nto mem (n + 1) := by
      rw [hmem]
      exact errorAt_succ R nto mem n
    have hcond : ¬ ((lsFor R N allstates nto n (passStart mem analysis solves)).prev_error ≥ 0 ∧
        ComputeDiff
          (R.SolveSysLS (lsFor R N allstates nto n (passStart mem analysis solves)).mem).d_full
          (R.SolveSysLS (lsFor R N allstates nto n (passStart mem analysis solves)).mem).q nto
          > (lsFor R N allstates nto n (passStart mem analysis solves)).prev_error) := by
      rw [herr, hprev]
      rintro ⟨h0, h1⟩
      by_cases hn : n = 0
      · rw [if_pos hn] at h0
        norm_num at h0
      · rw [if_neg hn] at h1
        have := h (n + 1) (by omega) (Nat.le_refl _)
        rw [Nat.add_sub_cancel] at this
        exact absurd h1 (not_lt.mpr this)
    rw [lsBody_accept R N allstates nto _ hcond]
    refine ⟨rfl, ?_, ?_, ?_⟩
    · show R.SolveSysLS _ = _
      rw [hmem, Function.iterate_succ_apply']
    · show ComputeDiff _ _ nto = _
      rw [herr, if_neg (Nat.succ_ne_zero n)]
    · show some (ComputeDiff _ _ nto) = _
      rw [herr, if_neg (Nat.succ_ne_zero n)]

/-- The error measured at any turn is not negative. -/
theorem errorAt_nonneg {σ : Type} (R : Routines σ) (nto : Nat) (mem : Mem σ) (j : Nat) :
    0 ≤ errorAt R nto mem j :=
  ComputeDiff_nonneg _ _ _

/-- A pass stops at turn `k` when the errors did not grow before turn `k` and
the error of turn `k` exceeds that of turn `k - 1`. -/
theorem lsPass_stops_at {σ : Type} (R : Routines σ) (N allstates nto M k : Nat)
    (mem : Mem σ) (analysis : Buf) (solves : Nat) (hk : 2 ≤ k) (hkM : k ≤ M)
    (hleast : ∀ j, 2 ≤ j → j < k → errorAt R nto mem j ≤ errorAt R nto mem (j - 1))
    (hworse : errorAt R nto mem k > errorAt R nto mem (k - 1)) :
    (lsPass R N allstates nto M mem analysis solves).stopped = true ∧
    (lsPass R N allstates nto M mem analysis solves).iterations = k ∧
    (lsPass R N allstates nto M mem analysis solves).error = some (errorAt R nto mem k) ∧
    (lsPass R N allstates nto M mem analysis solves).prev_error =
      errorAt R nto mem (k - 1) := by
  obtain ⟨a, rfl⟩ : ∃ a, k = a + 2 := ⟨k - 2, by omega⟩
  obtain ⟨b, rfl⟩ : ∃ b, M = (a + 1) + (b + 1) := ⟨M - (a + 2), by omega⟩
  simp only [Nat.add_succ_sub_one] at hworse
  obtain ⟨hstop, hmem, hprev, _⟩ := lsFor_accepting R N allstates nto mem analysis solves
    (a + 1) (fun j hj hja => hleast j hj (by omega))
  have hiter := lsFor_running R N allstates nto (a + 1) _ hstop
  unfold lsPass
  rw [lsFor_add R N allstates nto (b + 1) (a + 1) _ hstop]
  rw [if_neg (Nat.succ_ne_zero a)] at hprev
  have herr : ComputeDiff
      (R.SolveSysLS
        (lsFor R N allstates nto (a + 1) (passStart mem analysis solves)).mem).d_full
      (R.SolveSysLS
        (lsFor R N allstates nto (a + 1) (passStart mem analysis solves)).mem).q nto
      = errorAt R nto mem (a + 2) := by
    rw [hmem]
    exact errorAt_succ R nto mem (a + 1)
  generalize lsFor R N allstates nto (a + 1) (passStart mem analysis solves) = s
    at hstop hmem hprev hiter herr
  have hbody := lsBody_worse R N allstates nto s
    (by rw [hprev]; exact errorAt_nonneg R nto mem (a + 1))
    (by rw [herr, hprev]; exact hworse)
  have hfor : lsFor R N allstates nto (b + 1) s = lsBody R N allstates nto s := by
    rw [lsFor]
    simp [hbody]
  rw [hfor, hbody]
  simp only [passStart] at hiter
  refine ⟨rfl, ?_, ?_, ?_⟩
  · show s.iterations + 1 = a + 2
    omega
  · show some (ComputeDiff _ _ nto) = _
    rw [herr]
  · show s.prev_error = _
    rw [hprev]
    rfl

/-- The error is zero when prediction and observation agree on the compared
entries. -/
theorem ComputeDiff_eq_zero (d q : Buf) (size : Nat) (h : ∀ i, i < size → q i = d i) :
    ComputeDiff d q size = 0 := by
  unfold ComputeDiff
  apply List.sum_eq_zero
  intro x hx
  obtain ⟨i, hi, rfl⟩ := List.mem_map.mp hx
  rw [h i (List.mem_range.mp hi), sub_self, mul_zero]

/-- A solver that never touches the observations leaves them as they were
after any number of calls. -/
theorem iterate_d_full {σ : Type} (R : Routines σ)
    (hkeep : ∀ m, (R.SolveSysLS m).d_full = m.d_full) (mem : Mem σ) :
    ∀ n, (R.SolveSysLS^[n] mem).d_full = mem.d_full := by
  intro n
  induction n with
  | zero => rfl
  | succ n ih => rw [Function.iterate_succ_apply', hkeep, ih]

/-- With a forward model that reproduces the observations, a pass of `M ≥ 1`
turns accepts every turn with error 0 and so runs all `M` turns. -/
theorem lsPass_perfect {σ : Type} (R : Routines σ) (N allstates nto M : Nat)
    (mem : Mem σ) (analysis : Buf) (solves : Nat) (hM : 1 ≤ M)
    (hperfect : ∀ m i, i < nto → (R.SolveSysLS m).q i = (R.SolveSysLS m).d_full i) :
    (lsPass R N allstates nto M mem analysis solves).iterations = M ∧
    (lsPass R N allstates nto M mem analysis solves).stopped = false ∧
    (lsPass R N allstates nto M mem analysis solves).error = some 0 ∧
    (lsPass R N allstates nto M mem analysis solves).prev_error = 0 ∧
    (lsPass R N allstates nto M mem analysis solves).mem = R.SolveSysLS^[M] mem := by
  have hzero : ∀ j, errorAt R nto mem (j + 1) = 0 := by
    intro j
    unfold errorAt
    rw [Function.iterate_succ_apply']
    exact ComputeDiff_eq_zero _ _ _ (hperfect _)
  have hle : ∀ j, 2 ≤ j → j ≤ M → errorAt R nto mem j ≤ errorAt R nto mem (j - 1) := by
    intro j hj _
    obtain ⟨a, rfl⟩ : ∃ a, j = a + 2 := ⟨j - 2, by omega⟩
    rw [Nat.add_succ_sub_one, hzero (a + 1), hzero a]
  obtain ⟨hstop, hmem, hprev, herr⟩ :=
    lsFor_accepting R N allstates nto mem analysis solves M hle
  have hiter := lsFor_running R N allstates nto M _ hstop
  simp only [passStart, Nat.zero_add] at hiter
  obtain ⟨a, rfl⟩ : ∃ a, M = a + 1 := ⟨M - 1, by omega⟩
  rw [if_neg (Nat.succ_ne_zero a), hzero a] at hprev herr
  exact ⟨hiter, hstop, herr, hprev, hmem⟩

/-- One turn of the clipping loop body, entry by entry. -/
theorem clipStep_apply (x a : Buf) (i k : Nat) :
    clipStep x a i k =
      if k = i + 3 then (if x k > 0 then x k else 0)
      else if k = i + 2 then (if x k > 0 then x k else 0)
      else if k = i + 1 then (if x k > 0 then x k else 0)
      else if k = i then (if x k > 1e-14 then x k else 1e-14)
      else a k := by
  unfold clipStep
  simp only [Function.update_apply]
  by_cases h3 : k = i + 3
  · subst h3
    simp
  by_cases h2 : k = i + 2
  · subst h2
    simp
  by_cases h1 : k = i + 1
  · subst h1
    simp
  by_cases h0 : k = i
  · subst h0
    simp
  · simp [h3, h2, h1, h0]

/-- The clipping loop, entry by entry: the first `N` entries get the discharge
floor, the next three the storage floor, the rest is left alone. -/
theorem clipLoop_apply (N : Nat) (x a : Buf) (k : Nat) :
    clipLoop N x a k =
      if k < N then (if x k > 1e-14 then x k else 1e-14)
      else if 1 ≤ N ∧ k < N + 3 then (if x k > 0 then x k else 0)
      else a k := by
  unfold clipLoop
  induction N with
  | zero => simp
  | succ n ih =>
    rw [List.range_succ, List.foldl_append]
    simp only [List.foldl_cons, List.foldl_nil]
    rw [clipStep_apply]
    by_cases h3 : k = n + 3
    · have e1 : ¬ k < n + 1 := by omega
      have e2 : 1 ≤ n + 1 ∧ k < n + 1 + 3 := by omega
      rw [if_pos h3, if_neg e1, if_pos e2]
    by_cases h2 : k = n + 2
    · have e1 : ¬ k < n + 1 := by omega
      have e2 : 1 ≤ n + 1 ∧ k < n + 1 + 3 := by omega
      rw [if_neg h3, if_pos h2, if_neg e1, if_pos e2]
    by_cases h1 : k = n + 1
    · have e1 : ¬ k < n + 1 := by omega
      have e2 : 1 ≤ n + 1 ∧ k < n + 1 + 3 := by omega
      rw [if_neg h3, if_neg h2, if_pos h1, if_neg e1, if_pos e2]
    by_cases h0 : k = n
    · have e1 : k < n + 1 := by omega
      rw [if_neg h3, if_neg h2, if_neg h1, if_pos h0, if_pos e1]
    · rw [if_neg h3, if_neg h2, if_neg h1, if_neg h0, ih]
      by_cases hlt : k < n
      · have e1 : k < n + 1 := by omega
        rw [if_pos hlt, if_pos e1]
      · have e1 : ¬ k < n + 1 := by omega
        have e2 : ¬ (1 ≤ n ∧ k < n + 3) := by omega
        have e3 : ¬ (1 ≤ n + 1 ∧ k < n + 1 + 3) := by omega
        rw [if_neg hlt, if_neg e1, if_neg e2, if_neg e3]

/-- The conditional of the clipping loop is a maximum. -/
theorem clip_eq_max (v c : ℚ) : (if v > c then v else c) = max v c := by
  rcases lt_or_le c v with h | h
  · rw [if_pos h, max_eq_left (le_of_lt h)]
  · rw [if_neg (not_lt.mpr h), max_eq_right h]

/-- A turn that did not stop took the accepting branch. -/
theorem lsBody_running {σ : Type} (R : Routines σ) (N allstates nto : Nat)
    (s : PassState σ) (h : (lsBody R N allstates nto s).stopped = false) :
    (lsBody R N allstates nto s).mem = R.SolveSysLS s.mem ∧
    (lsBody R N allstates nto s).analysis =
      clipLoop N (R.SolveSysLS s.mem).x_start s.analysis := by
  by_cases hc : s.prev_error ≥ 0 ∧
      ComputeDiff (R.SolveSysLS s.mem).d_full (R.SolveSysLS s.mem).q nto > s.prev_error
  · rw [lsBody_worse R N allstates nto s hc.1 hc.2] at h
    exact absurd h (by simp)
  · rw [lsBody_accept R N allstates nto s hc]
    exact ⟨rfl, rfl⟩

/-- A turn of the loop body never changes `analysis` at an index from `N + 3` on. -/
theorem lsBody_frame {σ : Type} (R : Routines σ) (N allstates nto : Nat)
    (s : PassState σ) (k : Nat) (hk : N + 3 ≤ k) :
    (lsBody R N allstates nto s).analysis k = s.analysis k := by
  by_cases hc : s.prev_error ≥ 0 ∧
      ComputeDiff (R.SolveSysLS s.mem).d_full (R.SolveSysLS s.mem).q nto > s.prev_error
  · rw [lsBody_worse R N allstates nto s hc.1 hc.2]
  · rw [lsBody_accept R N allstates nto s hc]
    show clipLoop N _ s.analysis k = s.analysis k
    have e1 : ¬ k < N := by omega
    have e2 : ¬ (1 ≤ N ∧ k < N + 3) := by omega
    rw [clipLoop_apply, if_neg e1, if_neg e2]

/-- A turn that stops has copied `analysis` into `x_start` below `allstates`. -/
theorem lsBody_stopped {σ : Type} (R : Routines σ) (N allstates nto : Nat)
    (s : PassState σ) (h : (lsBody R N allstates nto s).stopped = true)
    (k : Nat) (hk : k < allstates) :
    (lsBody R N allstates nto s).mem.x_start k = s.analysis k := by
  by_cases hc : s.prev_error ≥ 0 ∧
      ComputeDiff (R.SolveSysLS s.mem).d_full (R.SolveSysLS s.mem).q nto > s.prev_error
  · rw [lsBody_worse R N allstates nto s hc.1 hc.2]
    show rollback allstates s.analysis _ k = s.analysis k
    rw [rollback_apply, if_pos hk]
  · rw [lsBody_accept R N allstates nto s hc] at h
    exact absurd h (by simp)

/-- The loop never changes `analysis` at an index from `N + 3` on, and when it
stops by rollback `x_start` holds the initial `analysis` value there. -/
theorem lsFor_frame {σ : Type} (R : Routines σ) (N allstates nto : Nat)
    (k : Nat) (hk : N + 3 ≤ k) (hka : k < allstates) :
    ∀ (n : Nat) (s : PassState σ),
      (lsFor R N allstates nto n s).analysis k = s.analysis k ∧
      (s.stopped = false → (lsFor R N allstates nto n s).stopped = true →
        (lsFor R N allstates nto n s).mem.x_start k = s.analysis k) := by
  intro n
  induction n with
  | zero =>
    intro s
    refine ⟨rfl, fun h0 h1 => ?_⟩
    rw [lsFor, h0] at h1
    exact absurd h1 (by simp)
  | succ n ih =>
    intro s
    rw [lsFor]
    by_cases hst : (lsBody R N allstates nto s).stopped = true
    · rw [if_pos hst]
      exact ⟨lsBody_frame R N allstates nto s k hk,
        fun _ _ => lsBody_stopped R N allstates nto s hst k hka⟩
    · rw [if_neg hst]
      obtain ⟨h1, h2⟩ := ih (lsBody R N allstates nto s)
      have hfr := lsBody_frame R N allstates nto s k hk
      refine ⟨by rw [h1, hfr], fun _ hstop => ?_⟩
      rw [h2 (by simpa using hst) hstop, hfr]

/-- The four assignments of the clipping loop body for index `i`, as writes. -/
theorem clipWrites_succ (n : Nat) (x : Buf) :
    clipWrites (n + 1) x = clipWrites n x ++
      [(n, if x n > 1e-14 then x n else 1e-14),
       (n + 1, if x (n + 1) > 0 then x (n + 1) else 0),
       (n + 2, if x (n + 2) > 0 then x (n + 2) else 0),
       (n + 3, if x (n + 3) > 0 then x (n + 3) else 0)] := by
  unfold clipWrites
  rw [List.range_succ, List.foldl_append]
  rfl

/-- Membership in the writes of the clipping loop. -/
theorem mem_clipWrites (N : Nat) (x : Buf) (w : Nat × ℚ) :
    w ∈ clipWrites N x ↔
      ∃ i, i < N ∧
        (w = (i, if x i > 1e-14 then x i else 1e-14) ∨
         w = (i + 1, if x (i + 1) > 0 then x (i + 1) else 0) ∨
         w = (i + 2, if x (i + 2) > 0 then x (i + 2) else 0) ∨
         w = (i + 3, if x (i + 3) > 0 then x (i + 3) else 0)) := by
  induction N with
  | zero => simp [clipWrites]
  | succ n ih =>
    rw [clipWrites_succ, List.mem_append, ih]
    simp only [List.mem_cons, List.mem_singleton, List.not_mem_nil, or_false]
    constructor
    · rintro (⟨i, hi, h⟩ | h)
      · exact ⟨i, Nat.lt_succ_of_lt hi, h⟩
      · exact ⟨n, Nat.lt_succ_self n, h⟩
    · rintro ⟨i, hi, h⟩
      by_cases hin : i = n
      · subst hin
        exact Or.inr h
      · exact Or.inl ⟨i, by omega, h⟩

/-- The clipping loop is the insertion of its writes, in order, into `analysis`. -/
theorem clipLoop_eq_assemble (N : Nat) (x a : Buf) :
    clipLoop N x a = assemble a (clipWrites N x) := by
  induction N with
  | zero => rfl
  | succ n ih =>
    rw [clipWrites_succ]
    unfold assemble
    rw [List.foldl_append]
    unfold clipLoop
    rw [List.range_succ, List.foldl_append]
    simp only [List.foldl_cons, List.foldl_nil]
    unfold clipLoop assemble at ih
    rw [ih]
    rfl

/-! ## Facts about the snapshot preparation -/

/-- C1: whatever the external routines do, each pass performs at most
`M = max_least_squares_iters` iterations, one call of `SolveSysLS` per iteration,
and the `do`-`while` loop returns after at most 2 passes (any fuel of at least 2
is enough), hence after at most `2 * M` calls of `SolveSysLS`. -/
theorem C1_cycle_terminates_within_two_passes {σ : Type} (R : Routines σ)
    (N nto M fuel : Nat) (world : σ) (x_b d_full : Buf) :
    (∀ (allstates : Nat) (mem : Mem σ) (analysis : Buf) (solves : Nat),
      (lsPass R N allstates nto M mem analysis solves).iterations ≤ M ∧
      (lsPass R N allstates nto M mem analysis solves).solves =
        solves + (lsPass R N allstates nto M mem analysis solves).iterations) ∧
    ∃ r, runCycle R N nto M (fuel + 2) world x_b d_full = some r ∧
      r.passes.length ≤ 2 ∧
      (∀ p ∈ r.passes, p.iterations ≤ M) ∧
      r.solves = (r.passes.map (fun p => p.iterations)).sum ∧
      r.solves ≤ 2 * M := by
  refine ⟨fun allstates mem analysis solves =>
    lsPass_counts R N allstates nto M mem analysis solves, ?_⟩
  rw [runCycle_eq]
  have h1 := lsPass_counts R N (assim_dim * N) nto M
    (cycleStart (assim_dim * N) world x_b d_full).mem
    (cycleStart (assim_dim * N) world x_b d_full).analysis 0
  have h2 := lsPass_counts R N (assim_dim * N) nto M
    (mitigation R N nto M world x_b d_full).1
    (firstPass R N nto M world x_b d_full).analysis
    (firstPass R N nto M world x_b d_full).solves
  change (firstPass R N nto M world x_b d_full).iterations ≤ M ∧
    (firstPass R N nto M world x_b d_full).solves =
      0 + (firstPass R N nto M world x_b d_full).iterations at h1
  change (secondPass R N nto M world x_b d_full).iterations ≤ M ∧
    (secondPass R N nto M world x_b d_full).solves =
      (firstPass R N nto M world x_b d_full).solves +
        (secondPass R N nto M world x_b d_full).iterations at h2
  by_cases hb : (mitigation R N nto M world x_b d_full).2 = true
  · rw [if_pos hb]
    refine ⟨_, rfl, ?_, ?_, ?_, ?_⟩
    · simp
    · intro p hp
      simp only [List.mem_cons, List.mem_singleton, List.not_mem_nil, or_false] at hp
      rcases hp with rfl | rfl
      · exact h1.1
      · exact h2.1
    · simp only [List.map_cons, List.map_nil, List.sum_cons, List.sum_nil]
      omega
    · show (secondPass R N nto M world x_b d_full).solves ≤ 2 * M
      omega
  · rw [if_neg hb]
    refine ⟨_, rfl, ?_, ?_, ?_, ?_⟩
    · simp
    · intro p hp
      simp only [List.mem_singleton] at hp
      subst hp
      exact h1.1
    · simp only [List.map_cons, List.map_nil, List.sum_cons, List.sum_nil]
      omega
    · show (firstPass R N nto M world x_b d_full).solves ≤ 2 * M
      omega

/-- C2: within one pass started from any memory, if iterations `1 .. k-1` were
accepted (`2 ≤ k ≤ M`) and the error computed at iteration `k` is strictly
greater than the error recorded at iteration `k-1`, then the pass of `M` turns
stops at iteration `k` with exactly `k` calls of `SolveSysLS`, its analysis is
the analysis as it stood after iteration `k-1`, and `x_start` equals that
analysis at every index below `allstates`. -/
theorem C2_rollback_on_worse_error {σ : Type} (R : Routines σ)
    (N allstates nto M k : Nat) (mem : Mem σ) (analysis : Buf) (solves : Nat)
    (hk : 2 ≤ k) (hkM : k ≤ M)
    (hrun : (lsPass R N allstates nto (k - 1) mem analysis solves).stopped = false)
    (hworse :
      ComputeDiff
        (R.SolveSysLS (lsPass R N allstates nto (k - 1) mem analysis solves).mem).d_full
        (R.SolveSysLS (lsPass R N allstates nto (k - 1) mem analysis solves).mem).q nto
      > (lsPass R N allstates nto (k - 1) mem analysis solves).prev_error) :
    (lsPass R N allstates nto (k - 1) mem analysis solves).error =
        some (lsPass R N allstates nto (k - 1) mem analysis solves).prev_error ∧
    (lsPass R N allstates nto (k - 1) mem analysis solves).iterations = k - 1 ∧
    (lsPass R N allstates nto M mem analysis solves).stopped = true ∧
    (lsPass R N allstates nto M mem analysis solves).iterations = k ∧
    (lsPass R N allstates nto M mem analysis solves).solves = solves + k ∧
    (lsPass R N allstates nto M mem analysis solves).analysis =
      (lsPass R N allstates nto (k - 1) mem analysis solves).analysis ∧
    ∀ i, i < allstates →
      (lsPass R N allstates nto M mem analysis solves).mem.x_start i =
        (lsPass R N allstates nto (k - 1) mem analysis solves).analysis i := by
  obtain ⟨a, rfl⟩ : ∃ a, k = a + 2 := ⟨k - 2, by omega⟩
  obtain ⟨b, rfl⟩ : ∃ b, M = (a + 1) + (b + 1) := ⟨M - (a + 2), by omega⟩
  simp only [Nat.add_succ_sub_one] at hrun hworse ⊢
  unfold lsPass at hrun hworse ⊢
  have hiter := lsFor_running R N allstates nto (a + 1) _ hrun
  have hprev := lsFor_prev_error_nonneg R N allstates nto a _ hrun
  have herr := lsFor_error R N allstates nto a (passStart mem analysis solves) hrun
  have hcnt := lsFor_counts R N allstates nto (a + 1) (passStart mem analysis solves)
  rw [lsFor_add R N allstates nto (b + 1) (a + 1) _ hrun]
  generalize lsFor R N allstates nto (a + 1) (passStart mem analysis solves) = s
    at hrun hworse hiter hprev herr hcnt ⊢
  have hbody := lsBody_worse R N allstates nto s hprev hworse
  have hfor : lsFor R N allstates nto (b + 1) s = lsBody R N allstates nto s := by
    rw [lsFor]
    simp [hbody]
  rw [hfor, hbody]
  simp only [passStart] at hiter hcnt
  refine ⟨herr, by omega, rfl, by show s.iterations + 1 = a + 2; omega,
    by show s.solves + 1 = solves + (a + 2); omega, rfl, ?_⟩
  intro i hi
  show rollback allstates s.analysis (R.SolveSysLS s.mem).x_start i = s.analysis i
  rw [rollback_apply, if_pos hi]

/-- C2 at a concrete run: one node, one observation equal to 0, a solver whose
prediction is 1 at the first call and 2 at the second (errors 1, then 4), cap 3:
the pass stops at iteration 2 with the analysis of iteration 1. -/
theorem C2_rollback_on_worse_error_witness :
    (lsPass driftRoutines 1 4 1 (2 - 1) zeroMem calloc 0).error =
        some (lsPass driftRoutines 1 4 1 (2 - 1) zeroMem calloc 0).prev_error ∧
    (lsPass driftRoutines 1 4 1 (2 - 1) zeroMem calloc 0).iterations = 2 - 1 ∧
    (lsPass driftRoutines 1 4 1 3 zeroMem calloc 0).stopped = true ∧
    (lsPass driftRoutines 1 4 1 3 zeroMem calloc 0).iterations = 2 ∧
    (lsPass driftRoutines 1 4 1 3 zeroMem calloc 0).solves = 0 + 2 ∧
    (lsPass driftRoutines 1 4 1 3 zeroMem calloc 0).analysis =
      (lsPass driftRoutines 1 4 1 (2 - 1) zeroMem calloc 0).analysis ∧
    ∀ i, i < 4 →
      (lsPass driftRoutines 1 4 1 3 zeroMem calloc 0).mem.x_start i =
        (lsPass driftRoutines 1 4 1 (2 - 1) zeroMem calloc 0).analysis i :=
  C2_rollback_on_worse_error driftRoutines 1 4 1 3 2 zeroMem calloc 0
    (by decide) (by decide)
    (by simp [lsPass, lsFor, lsBody_passStart])
    (by
      simp [lsPass, lsFor, lsBody_passStart, driftRoutines, zeroMem, calloc, ComputeDiff]
      norm_num)

/-- C6: the `for` loop (the ITERATE phase) runs exactly twice when
`ReduceBadDischargeValues` returns true after the first pass and exactly once
when it returns false; `ReduceBadDischargeValues` is called exactly once per
cycle, after the first pass, so the state left by the second pass is final. -/
theorem C6_one_shot_retry {σ : Type} (R : Routines σ)
    (N nto M fuel : Nat) (world : σ) (x_b d_full : Buf) :
    ∃ r, runCycle R N nto M (fuel + 2) world x_b d_full = some r ∧
      r.reduces = 1 ∧
      r.passes.length =
        (if (R.ReduceBadDischargeValues
              (firstPass R N nto M world x_b d_full).mem).2 = true then 2 else 1) ∧
      ((R.ReduceBadDischargeValues (firstPass R N nto M world x_b d_full).mem).2 = true →
        r.passes = [firstPass R N nto M world x_b d_full,
                    secondPass R N nto M world x_b d_full] ∧
        r.mem = (secondPass R N nto M world x_b d_full).mem ∧
        r.analysis = (secondPass R N nto M world x_b d_full).analysis) ∧
      ((R.ReduceBadDischargeValues (firstPass R N nto M world x_b d_full).mem).2 = false →
        r.passes = [firstPass R N nto M world x_b d_full] ∧
        r.mem =
          (R.ReduceBadDischargeValues (firstPass R N nto M world x_b d_full).mem).1 ∧
        r.analysis = (firstPass R N nto M world x_b d_full).analysis) := by
  rw [runCycle_eq]
  change ∃ r, _ = some r ∧ r.reduces = 1 ∧
    r.passes.length = (if (mitigation R N nto M world x_b d_full).2 = true then 2 else 1) ∧
    ((mitigation R N nto M world x_b d_full).2 = true → _) ∧
    ((mitigation R N nto M world x_b d_full).2 = false →
      r.passes = _ ∧ r.mem = (mitigation R N nto M world x_b d_full).1 ∧ _)
  by_cases hb : (mitigation R N nto M world x_b d_full).2 = true
  · rw [if_pos hb, if_pos hb]
    exact ⟨_, rfl, rfl, rfl, fun _ => ⟨rfl, rfl, rfl⟩, fun h => by simp [hb] at h⟩
  · rw [if_neg hb, if_neg hb]
    exact ⟨_, rfl, rfl, rfl, fun h => absurd h hb, fun _ => ⟨rfl, rfl, rfl⟩⟩

/-- C7: in every pass with `max_least_squares_iters = M + 1 ≥ 1` the first
iteration is accepted whatever its error: no rollback and no `break`, the error
is recorded as the previous error, and the clipping loop runs on the solver's
trial state.  Every pass of the cycle, the retry pass included, starts again
from `prev_error = -1`, so it begins with such an accepted iteration whatever
errors the first pass recorded. -/
theorem C7_first_iteration_accepted {σ : Type} (R : Routines σ)
    (N nto M fuel : Nat) (world : σ) (x_b d_full : Buf) :
    (∀ (allstates : Nat) (mem : Mem σ) (analysis : Buf) (solves : Nat),
      (lsBody R N allstates nto (passStart mem analysis solves)).stopped = false ∧
      (lsBody R N allstates nto (passStart mem analysis solves)).mem = R.SolveSysLS mem ∧
      (lsBody R N allstates nto (passStart mem analysis solves)).prev_error =
        ComputeDiff (R.SolveSysLS mem).d_full (R.SolveSysLS mem).q nto ∧
      (lsBody R N allstates nto (passStart mem analysis solves)).error =
        some (ComputeDiff (R.SolveSysLS mem).d_full (R.SolveSysLS mem).q nto) ∧
      (lsBody R N allstates nto (passStart mem analysis solves)).analysis =
        clipLoop N (R.SolveSysLS mem).x_start analysis ∧
      lsPass R N allstates nto (M + 1) mem analysis solves =
        lsFor R N allstates nto M
          (lsBody R N allstates nto (passStart mem analysis solves))) ∧
    secondPass R N nto (M + 1) world x_b d_full =
      lsFor R N (assim_dim * N) nto M
        (lsBody R N (assim_dim * N) nto
          (passStart (mitigation R N nto (M + 1) world x_b d_full).1
            (firstPass R N nto (M + 1) world x_b d_full).analysis
            (firstPass R N nto (M + 1) world x_b d_full).solves)) ∧
    ∃ r, runCycle R N nto (M + 1) (fuel + 2) world x_b d_full = some r ∧
      ∀ p ∈ r.passes, ∃ (mem : Mem σ) (analysis : Buf) (solves : Nat),
        p = lsFor R N (assim_dim * N) nto M
          (lsBody R N (assim_dim * N) nto (passStart mem analysis solves)) := by
  have hpass : ∀ (allstates : Nat) (mem : Mem σ) (analysis : Buf) (solves : Nat),
      lsPass R N allstates nto (M + 1) mem analysis solves =
        lsFor R N allstates nto M
          (lsBody R N allstates nto (passStart mem analysis solves)) := by
    intro allstates mem analysis solves
    unfold lsPass
    rw [lsFor]
    simp [lsBody_passStart]
  refine ⟨fun allstates mem analysis solves => ?_, hpass _ _ _ _, ?_⟩
  · refine ⟨?_, ?_, ?_, ?_, ?_, hpass allstates mem analysis solves⟩ <;>
      rw [lsBody_passStart]
  · rw [runCycle_eq]
    by_cases hb : (mitigation R N nto (M + 1) world x_b d_full).2 = true
    · rw [if_pos hb]
      refine ⟨_, rfl, ?_⟩
      intro p hp
      simp only [List.mem_cons, List.mem_singleton, List.not_mem_nil, or_false] at hp
      rcases hp with rfl | rfl
      · exact ⟨_, _, _, hpass _ _ _ _⟩
      · exact ⟨_, _, _, hpass _ _ _ _⟩
    · rw [if_neg hb]
      refine ⟨_, rfl, ?_⟩
      intro p hp
      simp only [List.mem_singleton] at hp
      subst hp
      exact ⟨_, _, _, hpass _ _ _ _⟩

/-- C3 (evaluation of the code where the claim fails): two nodes, background all
ones, one accepted iteration in which the solver leaves the discharge of node 1
(index `4 * 1`) at `-1`.  The clipping loop addresses index `i`, not `4 * i`, so
that entry is floored at 0 instead of `1e-14`: the accepted analysis has a
discharge component below `1e-14`. -/
theorem C3_discharge_floor_missed :
    (firstPass sinkRoutines 2 1 1 () (fun _ => 1) calloc).stopped = false ∧
    (firstPass sinkRoutines 2 1 1 () (fun _ => 1) calloc).iterations = 1 ∧
    (firstPass sinkRoutines 2 1 1 () (fun _ => 1) calloc).mem.x_start (4 * 1) = -1 ∧
    (firstPass sinkRoutines 2 1 1 () (fun _ => 1) calloc).analysis (4 * 1) = 0 ∧
    ¬ ((firstPass sinkRoutines 2 1 1 () (fun _ => 1) calloc).analysis (4 * 1) ≥ 1e-14) := by
  have hr : List.range 2 = [0, 1] := rfl
  have hp : firstPass sinkRoutines 2 1 1 () (fun _ => 1) calloc =
      lsBody sinkRoutines 2 (assim_dim * 2) 1
        (passStart (cycleStart (assim_dim * 2) () (fun _ => 1) calloc).mem
          (cycleStart (assim_dim * 2) () (fun _ => 1) calloc).analysis 0) := by
    unfold firstPass lsPass
    rw [lsFor]
    simp [lsBody_passStart, lsFor]
  rw [hp, lsBody_passStart]
  have ha : clipLoop 2
      (sinkRoutines.SolveSysLS (cycleStart (assim_dim * 2) () (fun _ => 1) calloc).mem).x_start
      (cycleStart (assim_dim * 2) () (fun _ => 1) calloc).analysis (4 * 1) = 0 := by
    simp [clipLoop, clipStep, hr, sinkRoutines, cycleStart, Function.update_apply]
  refine ⟨rfl, rfl, ?_, ha, ?_⟩
  · simp [sinkRoutines]
  · show ¬ (clipLoop 2 _ _ (4 * 1) ≥ 1e-14)
    rw [ha]
    norm_num

/-! ## Claims about the aggregation -/

/-- C4: for every `N`, every number of ranks `np` and every assignment of each
node to a rank below `np`: before the reduction the buffer of rank `r` holds the
state of every node it owns and zero at every index of a node it does not own;
after the element-wise sum, `x_b[i*4 + j]` is component `j` of node `i` as held by
its owner, and all ranks hold the same vector. -/
theorem C4_sum_reduction_is_gather (N np : Nat) (assignments : Nat → Nat)
    (y : Nat → Nat → Nat → ℚ) (hown : ∀ i, i < N → assignments i < np) :
    (∀ r i j, i < N → j < 4 → assignments i ≠ r →
      fillBackground N assignments r (y r) (i * 4 + j) = 0) ∧
    (∀ r i j, i < N → j < 4 → assignments i = r →
      fillBackground N assignments r (y r) (i * 4 + j) = y r i j) ∧
    (∀ r i j, i < N → j < 4 →
      aggregate N np assignments y r (i * 4 + j) = y (assignments i) i j) ∧
    (∀ r s, aggregate N np assignments y r = aggregate N np assignments y s) := by
  refine ⟨?_, ?_, ?_, ?_⟩
  · intro r i j _ hj ha
    have hdiv : (i * 4 + j) / 4 = i := by omega
    rw [fillBackground_apply, hdiv]
    simp [ha]
  · intro r i j hi hj ha
    have hdiv : (i * 4 + j) / 4 = i := by omega
    have hmod : (i * 4 + j) % 4 = j := by omega
    have hlt : i * 4 + j < 4 * N := by omega
    rw [fillBackground_apply, hdiv, hmod, if_pos ⟨hlt, ha⟩]
  · intro r i j hi hj
    have hdiv : (i * 4 + j) / 4 = i := by omega
    have hmod : (i * 4 + j) % 4 = j := by omega
    have hlt : i * 4 + j < 4 * N := by omega
    rw [aggregate_apply, hdiv, hmod, if_pos ⟨hlt, hown i hi⟩]
  · intro r s
    funext k
    rw [aggregate_apply, aggregate_apply]

/-- C4 at a concrete input: three nodes dealt to two ranks in turn. -/
theorem C4_sum_reduction_is_gather_witness :
    (∀ r i j, i < 3 → j < 4 → alternating i ≠ r →
      fillBackground 3 alternating r (sampleStates r) (i * 4 + j) = 0) ∧
    (∀ r i j, i < 3 → j < 4 → alternating i = r →
      fillBackground 3 alternating r (sampleStates r) (i * 4 + j) = sampleStates r i j) ∧
    (∀ r i j, i < 3 → j < 4 →
      aggregate 3 2 alternating sampleStates r (i * 4 + j) =
        sampleStates (alternating i) i j) ∧
    (∀ r s, aggregate 3 2 alternating sampleStates r =
      aggregate 3 2 alternating sampleStates s) :=
  C4_sum_reduction_is_gather 3 2 alternating sampleStates (by decide)

/-- C5: if under two assignments of the nodes to ranks (each node owned by one
rank below the number of ranks) the owners hold the same per-node states `st`,
then the aggregated background vectors are identical, on whatever ranks they are
read, and equal the vector of a single-worker run (`np = 1`, every node on
rank 0) over the states `st`. -/
theorem C5_partition_invariance (N np₁ np₂ : Nat) (a₁ a₂ : Nat → Nat)
    (y₁ y₂ : Nat → Nat → Nat → ℚ) (st : Nat → Nat → ℚ)
    (h₁ : ∀ i, i < N → a₁ i < np₁) (h₂ : ∀ i, i < N → a₂ i < np₂)
    (hy₁ : ∀ i j, i < N → j < 4 → y₁ (a₁ i) i j = st i j)
    (hy₂ : ∀ i j, i < N → j < 4 → y₂ (a₂ i) i j = st i j) (r₁ r₂ : Nat) :
    aggregate N np₁ a₁ y₁ r₁ = aggregate N np₂ a₂ y₂ r₂ ∧
    aggregate N np₁ a₁ y₁ r₁ = aggregate N 1 (fun _ => 0) (fun _ => st) 0 := by
  have hsingle : ∀ (np : Nat) (a : Nat → Nat) (y : Nat → Nat → Nat → ℚ) (r : Nat),
      (∀ i, i < N → a i < np) → (∀ i j, i < N → j < 4 → y (a i) i j = st i j) →
      aggregate N np a y r = aggregate N 1 (fun _ => 0) (fun _ => st) 0 := by
    intro np a y r ha hy
    funext k
    rw [aggregate_apply, aggregate_apply]
    by_cases hk : k < 4 * N
    · have hi : k / 4 < N := by omega
      have hj : k % 4 < 4 := by omega
      rw [if_pos ⟨hk, ha _ hi⟩, if_pos ⟨hk, Nat.zero_lt_one⟩]
      exact hy _ _ hi hj
    · rw [if_neg (fun h => hk h.1), if_neg (fun h => hk h.1)]
  exact ⟨(hsingle np₁ a₁ y₁ r₁ h₁ hy₁).trans (hsingle np₂ a₂ y₂ r₂ h₂ hy₂).symm,
    hsingle np₁ a₁ y₁ r₁ h₁ hy₁⟩

/-- C5 at a concrete input: three nodes, dealt to two ranks in turn in one run
and all kept on rank 0 of three ranks in the other. -/
theorem C5_partition_invariance_witness :
    aggregate 3 2 alternating (fun _ => sharedStates) 1 =
      aggregate 3 3 (fun _ => 0) (fun _ => sharedStates) 2 ∧
    aggregate 3 2 alternating (fun _ => sharedStates) 1 =
      aggregate 3 1 (fun _ => 0) (fun _ => sharedStates) 0 :=
  C5_partition_invariance 3 2 3 alternating (fun _ => 0) (fun _ => sharedStates)
    (fun _ => sharedStates) sharedStates (by decide) (by decide)
    (fun _ _ _ _ => rfl) (fun _ _ _ _ => rfl) 1 2

/-! ## Claims about the needed links and the weight vectors -/

/-- C8: assume `sys[k].location = k` for every node, every gauge and upstream
link is a node (below `N`), and every gauge is owned by a rank below the number
of ranks.  Then after the logical-OR reduction `links_needed[n]`, for `n < N`, is
true on every rank exactly when `n` is a gauge location or a link in the
upstream list of some gauge; two runs with different assignments of nodes to
ranks produce the same flags. -/
theorem C8_links_needed_after_reduction (N num_obs : Nat) (obs_locs location : Nat → Nat)
    (upstreams : Nat → List Nat) (np₁ np₂ : Nat) (a₁ a₂ : Nat → Nat)
    (hloc : ∀ k, k < N → location k = k)
    (hobs : ∀ i, i < num_obs → obs_locs i < N)
    (hups : ∀ i, i < num_obs → ∀ u ∈ upstreams (obs_locs i), u < N)
    (h₁ : ∀ i, i < num_obs → a₁ (obs_locs i) < np₁)
    (h₂ : ∀ i, i < num_obs → a₂ (obs_locs i) < np₂)
    (r₁ r₂ n : Nat) (hn : n < N) :
    (linksNeeded N np₁ num_obs obs_locs a₁ location upstreams r₁ n = true ↔
      ∃ i, i < num_obs ∧ (n = obs_locs i ∨ n ∈ upstreams (obs_locs i))) ∧
    linksNeeded N np₁ num_obs obs_locs a₁ location upstreams r₁ n =
      linksNeeded N np₂ num_obs obs_locs a₂ location upstreams r₂ n := by
  have hiff : ∀ (np : Nat) (a : Nat → Nat) (r : Nat),
      (∀ i, i < num_obs → a (obs_locs i) < np) →
      (linksNeeded N np num_obs obs_locs a location upstreams r n = true ↔
        ∃ i, i < num_obs ∧ (n = obs_locs i ∨ n ∈ upstreams (obs_locs i))) :=
    fun np a r ha => linksNeeded_iff N np num_obs obs_locs a location upstreams
      hloc hobs hups ha r n hn
  refine ⟨hiff np₁ a₁ r₁ h₁, ?_⟩
  have e₁ := hiff np₁ a₁ r₁ h₁
  have e₂ := hiff np₂ a₂ r₂ h₂
  cases hb₁ : linksNeeded N np₁ num_obs obs_locs a₁ location upstreams r₁ n <;>
    cases hb₂ : linksNeeded N np₂ num_obs obs_locs a₂ location upstreams r₂ n <;>
    simp_all

/-- C8 at a concrete input: three links, gauges at links 0 and 1 with link 2
upstream of both; one run on two ranks, one on a single rank. -/
theorem C8_links_needed_after_reduction_witness :
    (linksNeeded 3 2 2 gaugeAt alternating id upstreamTwo 1 2 = true ↔
      ∃ i, i < 2 ∧ (2 = gaugeAt i ∨ 2 ∈ upstreamTwo (gaugeAt i))) ∧
    linksNeeded 3 2 2 gaugeAt alternating id upstreamTwo 1 2 =
      linksNeeded 3 1 2 gaugeAt (fun _ => 0) id upstreamTwo 0 2 :=
  C8_links_needed_after_reduction 3 2 gaugeAt id upstreamTwo 2 1 alternating (fun _ => 0)
    (fun _ _ => rfl) (by decide) (by decide) (by decide) (by decide) 1 0 2 (by decide)

/-- C9: under the assumptions of C8, the final `curr_idx` on rank 0 (one
discharge component per needed link) is the cardinality of the union of the
gauge nodes and their upstream sets.  In particular a single gauge with an
empty upstream list gives 1, and two different gauges whose only upstream link
is one shared link give 3: the shared link is counted once. -/
theorem C9_needed_count_is_union_card (N np num_obs : Nat) (obs_locs location : Nat → Nat)
    (upstreams : Nat → List Nat) (assignments : Nat → Nat)
    (hloc : ∀ k, k < N → location k = k)
    (hobs : ∀ i, i < num_obs → obs_locs i < N)
    (hups : ∀ i, i < num_obs → ∀ u ∈ upstreams (obs_locs i), u < N)
    (hown : ∀ i, i < num_obs → assignments (obs_locs i) < np) :
    curr_idx 0 N (linksNeeded N np num_obs obs_locs assignments location upstreams 0) =
      ((Finset.range num_obs).biUnion
        (fun i => insert (obs_locs i) (upstreams (obs_locs i)).toFinset)).card ∧
    (num_obs = 1 → upstreams (obs_locs 0) = [] →
      curr_idx 0 N (linksNeeded N np num_obs obs_locs assignments location upstreams 0)
        = 1) ∧
    (∀ u, num_obs = 2 → upstreams (obs_locs 0) = [u] → upstreams (obs_locs 1) = [u] →
      obs_locs 0 ≠ obs_locs 1 → u ≠ obs_locs 0 → u ≠ obs_locs 1 →
      curr_idx 0 N (linksNeeded N np num_obs obs_locs assignments location upstreams 0)
        = 3) := by
  have hcard :
      curr_idx 0 N (linksNeeded N np num_obs obs_locs assignments location upstreams 0) =
      ((Finset.range num_obs).biUnion
        (fun i => insert (obs_locs i) (upstreams (obs_locs i)).toFinset)).card := by
    unfold curr_idx
    rw [if_pos rfl, fillB_count]
    apply filter_length_eq_card
    intro n
    simp only [Finset.mem_biUnion, Finset.mem_range, Finset.mem_insert, List.mem_toFinset]
    constructor
    · rintro ⟨i, hi, h⟩
      have hn : n < N := by
        rcases h with h | h
        · rw [h]
          exact hobs i hi
        · exact hups i hi n h
      exact ⟨hn, (linksNeeded_iff N np num_obs obs_locs assignments location upstreams
        hloc hobs hups hown 0 n hn).mpr ⟨i, hi, h⟩⟩
    · rintro ⟨hn, h⟩
      obtain ⟨i, hi, h2⟩ := (linksNeeded_iff N np num_obs obs_locs assignments location
        upstreams hloc hobs hups hown 0 n hn).mp h
      exact ⟨i, hi, h2⟩
  refine ⟨hcard, ?_, ?_⟩
  · intro h1 hno
    rw [hcard, h1]
    simp [hno]
  · intro u h2 hu0 hu1 hne h0 h1
    rw [hcard, h2]
    have hr : Finset.range 2 = {0, 1} := by decide
    rw [hr]
    simp only [Finset.biUnion_insert, Finset.singleton_biUnion, hu0, hu1, List.toFinset_cons,
      List.toFinset_nil, insert_emptyc_eq]
    have hset : insert (obs_locs 0) {u} ∪ insert (obs_locs 1) {u} =
        ({obs_locs 0, obs_locs 1, u} : Finset Nat) := by
      ext x
      simp only [Finset.mem_union, Finset.mem_insert, Finset.mem_singleton]
      tauto
    rw [hset, Finset.card_insert_of_not_mem, Finset.card_insert_of_not_mem,
      Finset.card_singleton]
    · simp only [Finset.mem_singleton]
      exact fun h => h1 h.symm
    · simp only [Finset.mem_insert, Finset.mem_singleton, not_or]
      exact ⟨hne, fun h => h0 h.symm⟩

/-- C9 at concrete inputs: gauges at links 0 and 1 sharing the upstream link 2
give a count of 3, and a single gauge at link 0 without upstream links gives 1. -/
theorem C9_needed_count_is_union_card_witness :
    curr_idx 0 3 (linksNeeded 3 2 2 gaugeAt alternating id upstreamTwo 0) = 3 ∧
    curr_idx 0 3 (linksNeeded 3 2 1 gaugeAt alternating id noUpstream 0) = 1 :=
  ⟨(C9_needed_count_is_union_card 3 2 2 gaugeAt id upstreamTwo alternating
      (fun _ _ => rfl) (by decide) (by decide) (by decide)).2.2 2 rfl rfl rfl
      (by decide) (by decide) (by decide),
   (C9_needed_count_is_union_card 3 2 1 gaugeAt id noUpstream alternating
      (fun _ _ => rfl) (by decide) (by decide) (by decide)).2.1 rfl rfl⟩

/-- C10: for every `num_obs` and `num_steps` the `R` loop issues exactly the
writes of 1.0 at index `j * num_obs + i` for `i < num_obs`, `j < num_steps`; the
written indices are a rearrangement of `0, ..., num_steps * num_obs - 1`, so
each index below `num_total_obs` is written exactly once and none outside; after
assembly every one of the `num_total_obs` entries is 1.0 and nothing else
changed. -/
theorem C10_R_filled_with_ones (num_obs num_steps : Nat) (init : Buf) :
    (∀ w, w ∈ fillR num_obs num_steps ↔
      ∃ i j, i < num_obs ∧ j < num_steps ∧ w = (j * num_obs + i, 1)) ∧
    ((fillR num_obs num_steps).map Prod.fst).Perm (List.range (num_steps * num_obs)) ∧
    (fillR num_obs num_steps).length = num_steps * num_obs ∧
    (∀ k, k < num_steps * num_obs → assemble init (fillR num_obs num_steps) k = 1) ∧
    (∀ k, num_steps * num_obs ≤ k → assemble init (fillR num_obs num_steps) k = init k) := by
  have hperm : ((fillR num_obs num_steps).map Prod.fst).Perm
      (List.range (num_steps * num_obs)) := by
    rw [List.perm_ext_iff_of_nodup (fillR_indices_nodup num_obs num_steps)
      (List.nodup_range _)]
    intro k
    rw [mem_fillR_indices, List.mem_range]
  have hones : ∀ w ∈ fillR num_obs num_steps, w.2 = 1 := by
    intro w hw
    obtain ⟨i, j, _, _, rfl⟩ := (mem_fillR num_obs num_steps w).mp hw
    rfl
  refine ⟨mem_fillR num_obs num_steps, hperm, ?_, ?_, ?_⟩
  · have := hperm.length_eq
    rw [List.length_map, List.length_range] at this
    exact this
  · intro k hk
    rw [assemble_ones _ hones, if_pos ((mem_fillR_indices num_obs num_steps k).mpr hk)]
  · intro k hk
    have hnot : k ∉ (fillR num_obs num_steps).map Prod.fst := by
      rw [mem_fillR_indices]
      omega
    rw [assemble_ones _ hones, if_neg hnot]

/-! ## Claims about the iteration count, the snapshot and the clipping loop -/

/-- C11: write `e j` for the error of iteration `j` of a pass (`errorAt`, the
error after `j` solver calls; every `e j` is non-negative).  If `k ≥ 2` is the
least index with `e k > e (k-1)`, the pass with cap `M` performs exactly
`min M k` iterations (and, when `k ≤ M`, stops there with error `e k`); if no
index `2 ≤ j ≤ M` has `e j > e (j-1)` it performs exactly `M`.  In particular a
turn whose error equals the previous error is accepted. -/
theorem C11_iteration_count {σ : Type} (R : Routines σ) (N allstates nto M : Nat)
    (mem : Mem σ) (analysis : Buf) (solves : Nat) :
    (∀ j, 0 ≤ errorAt R nto mem j) ∧
    (∀ k, 2 ≤ k → errorAt R nto mem k > errorAt R nto mem (k - 1) →
      (∀ j, 2 ≤ j → j < k → errorAt R nto mem j ≤ errorAt R nto mem (j - 1)) →
      (lsPass R N allstates nto M mem analysis solves).iterations = min M k ∧
      (k ≤ M →
        (lsPass R N allstates nto M mem analysis solves).stopped = true ∧
        (lsPass R N allstates nto M mem analysis solves).error =
          some (errorAt R nto mem k))) ∧
    ((∀ j, 2 ≤ j → j ≤ M → errorAt R nto mem j ≤ errorAt R nto mem (j - 1)) →
      (lsPass R N allstates nto M mem analysis solves).iterations = M ∧
      (lsPass R N allstates nto M mem analysis solves).stopped = false ∧
      (1 ≤ M → (lsPass R N allstates nto M mem analysis solves).error =
        some (errorAt R nto mem M))) ∧
    (∀ s : PassState σ,
      ComputeDiff (R.SolveSysLS s.mem).d_full (R.SolveSysLS s.mem).q nto = s.prev_error →
      (lsBody R N allstates nto s).stopped = false) := by
  have hnone : (∀ j, 2 ≤ j → j ≤ M → errorAt R nto mem j ≤ errorAt R nto mem (j - 1)) →
      (lsPass R N allstates nto M mem analysis solves).iterations = M ∧
      (lsPass R N allstates nto M mem analysis solves).stopped = false ∧
      (1 ≤ M → (lsPass R N allstates nto M mem analysis solves).error =
        some (errorAt R nto mem M)) := by
    intro h
    obtain ⟨hstop, _, _, herr⟩ := lsFor_accepting R N allstates nto mem analysis solves M h
    have hiter := lsFor_running R N allstates nto M _ hstop
    simp only [passStart, Nat.zero_add] at hiter
    refine ⟨hiter, hstop, fun hM => ?_⟩
    unfold lsPass
    rw [herr, if_neg (by omega)]
  refine ⟨errorAt_nonneg R nto mem, ?_, hnone, ?_⟩
  · intro k hk hworse hleast
    by_cases hkM : k ≤ M
    · obtain ⟨h1, h2, h3, _⟩ := lsPass_stops_at R N allstates nto M k mem analysis solves
        hk hkM hleast hworse
      exact ⟨by rw [h2, Nat.min_eq_right hkM], fun _ => ⟨h1, h3⟩⟩
    · have hMk : M ≤ k := by omega
      refine ⟨?_, fun h => absurd h hkM⟩
      rw [Nat.min_eq_left hMk]
      exact (hnone (fun j hj hjM => hleast j hj (by omega))).1
  · intro s hs
    rw [lsBody_accept R N allstates nto s (by
      rintro ⟨_, h1⟩
      rw [hs] at h1
      exact lt_irrefl _ h1)]

/-- C11 at a concrete run: errors 1, 4, ... (the prediction drifts away by one
unit per call), cap 3: the least growing index is 2 and the pass performs
`min 3 2` iterations. -/
theorem C11_iteration_count_witness :
    (lsPass driftRoutines 1 4 1 3 zeroMem calloc 0).iterations = min 3 2 ∧
    ((2 : Nat) ≤ 3 →
      (lsPass driftRoutines 1 4 1 3 zeroMem calloc 0).stopped = true ∧
      (lsPass driftRoutines 1 4 1 3 zeroMem calloc 0).error =
        some (errorAt driftRoutines 1 zeroMem 2)) :=
  (C11_iteration_count driftRoutines 1 4 1 3 zeroMem calloc 0).2.1 2 (by decide)
    (by
      simp [errorAt, driftRoutines, zeroMem, calloc, ComputeDiff]
      norm_num)
    (fun j h2 hj => absurd h2 (by omega))

/-- C12 (the claim fails): in Scenario A (observations all 10.0, a forward model
that returns `q = d_full`, 3 observations) with cap 2 the pass performs 2
iterations, not 1: an error of 0 does not end the loop. -/
theorem C12_perfect_model_runs_to_cap :
    (∀ i, i < 3 → tenMem.d_full i = 10) ∧
    (∀ m i, i < 3 →
      (perfectRoutines.SolveSysLS m).q i = (perfectRoutines.SolveSysLS m).d_full i) ∧
    (lsPass perfectRoutines 1 4 3 2 tenMem calloc 0).iterations = 2 ∧
    (lsPass perfectRoutines 1 4 3 2 tenMem calloc 0).error = some 0 ∧
    ¬ (∀ M, 1 ≤ M → (lsPass perfectRoutines 1 4 3 M tenMem calloc 0).iterations = 1) := by
  have h := lsPass_perfect perfectRoutines 1 4 3 2 tenMem calloc 0 (by decide)
    (fun _ _ _ => rfl)
  refine ⟨fun _ _ => rfl, fun _ _ _ => rfl, h.1, h.2.2.1, ?_⟩
  intro hall
  have h1 := hall 2 (by decide)
  rw [h.1] at h1
  exact absurd h1 (by decide)

/-- C12 (amended): in Scenario A (3 observations, all equal to 10.0 and left
alone by the solver, a forward model whose prediction equals the observations
at every evaluation) the pass with cap `M ≥ 1` performs exactly `M`
iterations, none of them a rollback, each with error 0; the final error is 0
and the final prediction is 10.0; the pass ends after exactly 1 iteration
exactly when `M = 1`. -/
theorem C12_perfect_model_pass {σ : Type} (R : Routines σ) (N allstates M : Nat)
    (mem : Mem σ) (analysis : Buf) (solves : Nat) (hM : 1 ≤ M)
    (hobs : ∀ i, i < 3 → mem.d_full i = 10)
    (hkeep : ∀ m, (R.SolveSysLS m).d_full = m.d_full)
    (hperfect : ∀ m i, i < 3 → (R.SolveSysLS m).q i = (R.SolveSysLS m).d_full i) :
    (lsPass R N allstates 3 M mem analysis solves).iterations = M ∧
    (lsPass R N allstates 3 M mem analysis solves).stopped = false ∧
    (lsPass R N allstates 3 M mem analysis solves).error = some 0 ∧
    (lsPass R N allstates 3 M mem analysis solves).prev_error = 0 ∧
    (∀ i, i < 3 → (lsPass R N allstates 3 M mem analysis solves).mem.q i = 10) ∧
    ((lsPass R N allstates 3 M mem analysis solves).iterations = 1 ↔ M = 1) := by
  obtain ⟨h1, h2, h3, h4, h5⟩ :=
    lsPass_perfect R N allstates 3 M mem analysis solves hM hperfect
  refine ⟨h1, h2, h3, h4, ?_, by rw [h1]⟩
  intro i hi
  obtain ⟨a, rfl⟩ : ∃ a, M = a + 1 := ⟨M - 1, by omega⟩
  rw [h5, Function.iterate_succ_apply', hperfect _ i hi, hkeep,
    iterate_d_full R hkeep mem a, hobs i hi]

/-- C12 (amended) at a concrete run: cap 3, one node, the forward model that
copies the observations. -/
theorem C12_perfect_model_pass_witness :
    (lsPass perfectRoutines 1 4 3 3 tenMem calloc 0).iterations = 3 ∧
    (lsPass perfectRoutines 1 4 3 3 tenMem calloc 0).stopped = false ∧
    (lsPass perfectRoutines 1 4 3 3 tenMem calloc 0).error = some 0 ∧
    (lsPass perfectRoutines 1 4 3 3 tenMem calloc 0).prev_error = 0 ∧
    (∀ i, i < 3 → (lsPass perfectRoutines 1 4 3 3 tenMem calloc 0).mem.q i = 10) ∧
    ((lsPass perfectRoutines 1 4 3 3 tenMem calloc 0).iterations = 1 ↔ 3 = 1) :=
  C12_perfect_model_pass perfectRoutines 1 4 3 tenMem calloc 0 (by decide)
    (fun _ _ => rfl) (fun _ => rfl) (fun _ _ _ => rfl)

/-- C15: one execution of the clipping loop for `N ≥ 1` leaves
`analysis[k] = max (x_start[k]) 1e-14` for `k < N`,
`analysis[k] = max (x_start[k]) 0` for `N ≤ k ≤ N+2`, and `analysis[k]` unchanged
for `N+3 ≤ k` (in particular for `N+3 ≤ k < 4N`).  It only reads `x_start`: after
an accepted iteration the trial state is the one the solver returned. -/
theorem C15_clipping_loop_effect {σ : Type} (R : Routines σ) (N allstates nto : Nat)
    (x_start analysis : Buf) (hN : 1 ≤ N) :
    (∀ k, k < N → clipLoop N x_start analysis k = max (x_start k) 1e-14) ∧
    (∀ k, N ≤ k → k ≤ N + 2 → clipLoop N x_start analysis k = max (x_start k) 0) ∧
    (∀ k, N + 3 ≤ k → clipLoop N x_start analysis k = analysis k) ∧
    (∀ s : PassState σ, (lsBody R N allstates nto s).stopped = false →
      (lsBody R N allstates nto s).mem.x_start = (R.SolveSysLS s.mem).x_start ∧
      (lsBody R N allstates nto s).analysis =
        clipLoop N (R.SolveSysLS s.mem).x_start s.analysis) := by
  refine ⟨?_, ?_, ?_, ?_⟩
  · intro k hk
    rw [clipLoop_apply, if_pos hk, clip_eq_max]
  · intro k hk1 hk2
    have e1 : ¬ k < N := by omega
    have e2 : 1 ≤ N ∧ k < N + 3 := by omega
    rw [clipLoop_apply, if_neg e1, if_pos e2, clip_eq_max]
  · intro k hk
    have e1 : ¬ k < N := by omega
    have e2 : ¬ (1 ≤ N ∧ k < N + 3) := by omega
    rw [clipLoop_apply, if_neg e1, if_neg e2]
  · intro s hs
    obtain ⟨h1, h2⟩ := lsBody_running R N allstates nto s hs
    exact ⟨by rw [h1], h2⟩

/-- C15 at a concrete input: two nodes, a trial state of `-1` everywhere over an
analysis of 1 everywhere. -/
theorem C15_clipping_loop_effect_witness :
    (∀ k, k < 2 → clipLoop 2 (fun _ => -1) (fun _ => 1) k = max (-1) 1e-14) ∧
    (∀ k, 2 ≤ k → k ≤ 2 + 2 → clipLoop 2 (fun _ => -1) (fun _ => 1) k = max (-1) 0) ∧
    (∀ k, 2 + 3 ≤ k → clipLoop 2 (fun _ => -1) (fun _ => 1) k = 1) ∧
    (∀ s : PassState Unit, (lsBody driftRoutines 2 8 1 s).stopped = false →
      (lsBody driftRoutines 2 8 1 s).mem.x_start = (driftRoutines.SolveSysLS s.mem).x_start ∧
      (lsBody driftRoutines 2 8 1 s).analysis =
        clipLoop 2 (driftRoutines.SolveSysLS s.mem).x_start s.analysis) :=
  C15_clipping_loop_effect driftRoutines 2 8 1 (fun _ => -1) (fun _ => 1) (by decide)

/-- C16: let `N + 3 ≤ k < 4 * N`.  A pass of any number of turns, started from any
memory with `analysis[k]` equal to the background value, ends with `analysis[k]`
still equal to it, and if it ended by rollback `x_start[k]` equals it too.  The
cycle starts with `analysis[k] = x_b[k]`; hence at the end of the cycle, and at
the end of each of its passes, `analysis[k] = x_b[k]`, and after a rollback
`x_start[k] = x_b[k]`, whatever the solver and the mitigation wrote there. -/
theorem C16_analysis_tail_frozen {σ : Type} (R : Routines σ) (N nto M fuel : Nat)
    (world : σ) (x_b d_full : Buf) (k : Nat) (hk1 : N + 3 ≤ k) (hk2 : k < 4 * N) :
    (∀ (n : Nat) (mem : Mem σ) (analysis : Buf) (solves : Nat), analysis k = x_b k →
      (lsPass R N (assim_dim * N) nto n mem analysis solves).analysis k = x_b k ∧
      ((lsPass R N (assim_dim * N) nto n mem analysis solves).stopped = true →
        (lsPass R N (assim_dim * N) nto n mem analysis solves).mem.x_start k = x_b k)) ∧
    (cycleStart (assim_dim * N) world x_b d_full).analysis k = x_b k ∧
    ∃ r, runCycle R N nto M (fuel + 2) world x_b d_full = some r ∧
      r.analysis k = x_b k ∧
      ∀ p ∈ r.passes, p.analysis k = x_b k ∧ (p.stopped = true → p.mem.x_start k = x_b k) := by
  have hka : k < assim_dim * N := hk2
  have hpass : ∀ (n : Nat) (mem : Mem σ) (analysis : Buf) (solves : Nat),
      analysis k = x_b k →
      (lsPass R N (assim_dim * N) nto n mem analysis solves).analysis k = x_b k ∧
      ((lsPass R N (assim_dim * N) nto n mem analysis solves).stopped = true →
        (lsPass R N (assim_dim * N) nto n mem analysis solves).mem.x_start k = x_b k) := by
    intro n mem analysis solves ha
    obtain ⟨h1, h2⟩ := lsFor_frame R N (assim_dim * N) nto k hk1 hka n
      (passStart mem analysis solves)
    unfold lsPass
    refine ⟨by rw [h1]; exact ha, fun hs => ?_⟩
    rw [h2 rfl hs]
    exact ha
  have hstart : (cycleStart (assim_dim * N) world x_b d_full).analysis k = x_b k := by
    show memcpy calloc x_b (assim_dim * N) k = x_b k
    unfold memcpy
    rw [if_pos hka]
  have hfirst := hpass M (cycleStart (assim_dim * N) world x_b d_full).mem
    (cycleStart (assim_dim * N) world x_b d_full).analysis 0 hstart
  change (firstPass R N nto M world x_b d_full).analysis k = x_b k ∧
    ((firstPass R N nto M world x_b d_full).stopped = true →
      (firstPass R N nto M world x_b d_full).mem.x_start k = x_b k) at hfirst
  have hsecond := hpass M (mitigation R N nto M world x_b d_full).1
    (firstPass R N nto M world x_b d_full).analysis
    (firstPass R N nto M world x_b d_full).solves hfirst.1
  change (secondPass R N nto M world x_b d_full).analysis k = x_b k ∧
    ((secondPass R N nto M world x_b d_full).stopped = true →
      (secondPass R N nto M world x_b d_full).mem.x_start k = x_b k) at hsecond
  refine ⟨hpass, hstart, ?_⟩
  rw [runCycle_eq]
  by_cases hb : (mitigation R N nto M world x_b d_full).2 = true
  · rw [if_pos hb]
    refine ⟨_, rfl, hsecond.1, ?_⟩
    intro p hp
    simp only [List.mem_cons, List.mem_singleton, List.not_mem_nil, or_false] at hp
    rcases hp with rfl | rfl
    · exact hfirst
    · exact hsecond
  · rw [if_neg hb]
    refine ⟨_, rfl, hfirst.1, ?_⟩
    intro p hp
    simp only [List.mem_singleton] at hp
    subst hp
    exact hfirst

/-- C16 at a concrete input: two nodes (so `N + 3 = 5 < 8`), index 5, background 1
everywhere, a solver that drives index 4 negative. -/
theorem C16_analysis_tail_frozen_witness :
    (∀ (n : Nat) (mem : Mem Unit) (analysis : Buf) (solves : Nat),
      analysis 5 = (fun _ => (1 : ℚ)) 5 →
      (lsPass sinkRoutines 2 (assim_dim * 2) 1 n mem analysis solves).analysis 5 =
        (fun _ => (1 : ℚ)) 5 ∧
      ((lsPass sinkRoutines 2 (assim_dim * 2) 1 n mem analysis solves).stopped = true →
        (lsPass sinkRoutines 2 (assim_dim * 2) 1 n mem analysis solves).mem.x_start 5 =
          (fun _ => (1 : ℚ)) 5)) ∧
    (cycleStart (assim_dim * 2) () (fun _ => (1 : ℚ)) calloc).analysis 5 =
      (fun _ => (1 : ℚ)) 5 ∧
    ∃ r, runCycle sinkRoutines 2 1 3 (0 + 2) () (fun _ => (1 : ℚ)) calloc = some r ∧
      r.analysis 5 = (fun _ => (1 : ℚ)) 5 ∧
      ∀ p ∈ r.passes, p.analysis 5 = (fun _ => (1 : ℚ)) 5 ∧
        (p.stopped = true → p.mem.x_start 5 = (fun _ => (1 : ℚ)) 5) :=
  C16_analysis_tail_frozen sinkRoutines 2 1 3 0 () (fun _ => 1) calloc 5
    (by decide) (by decide)

/-- C17: the clipping loop is the in-order insertion into `analysis` of the
writes `clipWrites`; each write goes to an index `i`, `i+1`, `i+2` or `i+3` with
`i < N`, its value is read from `x_start` at that same index, all these indices
are accessed, and every one of them is strictly below `allstates = 4 * N`
(index arithmetic in `Nat`: unsigned overflow of `4 * N` is left aside). -/
theorem C17_clipping_in_bounds (N : Nat) (x_start analysis : Buf) :
    clipLoop N x_start analysis = assemble analysis (clipWrites N x_start) ∧
    (∀ w ∈ clipWrites N x_start,
      (∃ i, i < N ∧ (w.1 = i ∨ w.1 = i + 1 ∨ w.1 = i + 2 ∨ w.1 = i + 3)) ∧
      (w.2 = max (x_start w.1) 1e-14 ∨ w.2 = max (x_start w.1) 0) ∧
      w.1 < assim_dim * N) ∧
    (∀ i d, i < N → d ≤ 3 → i + d ∈ (clipWrites N x_start).map Prod.fst) := by
  refine ⟨clipLoop_eq_assemble N x_start analysis, ?_, ?_⟩
  · intro w hw
    obtain ⟨i, hi, h⟩ := (mem_clipWrites N x_start w).mp hw
    have hb : i + 3 < assim_dim * N := by
      unfold assim_dim
      omega
    rcases h with rfl | rfl | rfl | rfl
    · exact ⟨⟨i, hi, Or.inl rfl⟩, Or.inl (clip_eq_max _ _), by
        show i < assim_dim * N
        omega⟩
    · exact ⟨⟨i, hi, Or.inr (Or.inl rfl)⟩, Or.inr (clip_eq_max _ _), by
        show i + 1 < assim_dim * N
        omega⟩
    · exact ⟨⟨i, hi, Or.inr (Or.inr (Or.inl rfl))⟩, Or.inr (clip_eq_max _ _), by
        show i + 2 < assim_dim * N
        omega⟩
    · exact ⟨⟨i, hi, Or.inr (Or.inr (Or.inr rfl))⟩, Or.inr (clip_eq_max _ _), hb⟩
  · intro i d hi hd
    rw [List.mem_map]
    have hcase : d = 0 ∨ d = 1 ∨ d = 2 ∨ d = 3 := by omega
    rcases hcase with rfl | rfl | rfl | rfl
    · exact ⟨_, (mem_clipWrites N x_start _).mpr ⟨i, hi, Or.inl rfl⟩, rfl⟩
    · exact ⟨_, (mem_clipWrites N x_start _).mpr ⟨i, hi, Or.inr (Or.inl rfl)⟩, rfl⟩
    · exact ⟨_, (mem_clipWrites N x_start _).mpr ⟨i, hi, Or.inr (Or.inr (Or.inl rfl))⟩, rfl⟩
    · exact ⟨_, (mem_clipWrites N x_start _).mpr ⟨i, hi, Or.inr (Or.inr (Or.inr rfl))⟩, rfl⟩

end Assim
